import Mathlib

/-!
Verification of the `evs` content-addressed store and repository engine
(`src/store.rs`, `src/repo.rs`, `src/objects.rs`).

Modelling conventions.

* Byte strings (`Vec<u8>`, `OsString` contents, `&str` as seen through
  `as_bytes`/`size_of_val`) are `Bytes := List Nat`; every relevant
  comparison in the source (`starts_with`, `==`, length checks, the hex
  shape check) operates on encoded bytes, which the model mirrors exactly.
* `type Hash = [u8; 32]` is a 32-element byte list.  The SHA-256 digest of
  the canonical MessagePack encoding of an object is abstracted as a
  parameter `sha : Obj → Hash`: the source always computes
  `Sha256::digest(rmp_serde::to_vec(&obj))`, a fixed function of the
  (already canonicalized) object.  Where a statement needs digests of
  distinct objects not to collide it says so with finite, decidable
  hypotheses (`StoreOk`, `CollFree`, clean-run flags) rather than a global
  injectivity assumption, which no function into 32-byte space satisfies.
* A store file holds `gzip(encode(obj))`, written only by `Store::insert`;
  decompression and deserialization of such a file succeed, so a file is
  modelled as its name together with the object its contents decode to,
  and the digest `lookup` recomputes over the decompressed bytes is
  `sha obj`.
* Rust `todo!()` placeholders abort the process; they are modelled by the
  distinguished error value `Err.panicTodo` (the source produces no
  `EvsError` there — the process panics).
* `SystemTime` is abstracted as a numeric instant.
-/

/-- Raw byte strings (`Vec<u8>`, OS strings, UTF-8 contents of `&str`). -/
abbrev Bytes : Type := List Nat

/-- `type Hash = [u8; 32]` (store.rs): a 32-byte digest. -/
abbrev Hash : Type := Bytes

/-- One lowercase hex digit as its ASCII byte (`0`..`9`, `a`..`f`). -/
def hexDigit (d : Nat) : Nat := if d < 10 then 48 + d else 87 + d

/-- The two lowercase hex digits of one byte: `write!(f, "{:02x}", el)` in
`HashDisplay::fmt` (store.rs).  Bytes are `u8`, whence the `% 16` / `/ 16`. -/
def hexByte (b : Nat) : Bytes := [hexDigit (b / 16 % 16), hexDigit (b % 16)]

/-- `HashDisplay` (store.rs): concatenated per-byte hex rendering, 2 bytes
of output per byte of input. -/
def hashDisplay : Bytes → Bytes
  | [] => []
  | b :: bs => hexByte b ++ hashDisplay bs

/-- `TreeEntry` (objects.rs): a raw-byte name and the hash of the content. -/
structure TreeEntry where
  name : Bytes
  content : Hash
deriving DecidableEq

/-- `Commit` (objects.rs). -/
structure CommitData where
  parent : Hash
  name : String
  email : String
  tree : Hash
  msg : String
  date : Nat
deriving DecidableEq

/-- `Object` (objects.rs). -/
inductive Obj where
  | null : Obj
  | blob (data : Bytes) : Obj
  | tree (entries : List TreeEntry) : Obj
  | commit (c : CommitData) : Obj
deriving DecidableEq

/-- Strict lexicographic order on byte strings: `Ord` on `Vec<u8>`
(`a.name.cmp(&b.name)` in `Store::insert`). -/
def lexLt : Bytes → Bytes → Bool
  | _, [] => false
  | [], _ :: _ => true
  | a :: x, b :: y => if a < b then true else if b < a then false else lexLt x y

/-- Insert an entry into a name-sorted list, after all entries whose name is
strictly smaller and before any entry whose name is not. -/
def insEntry (e : TreeEntry) : List TreeEntry → List TreeEntry
  | [] => [e]
  | x :: xs => if lexLt x.name e.name then x :: insEntry e xs else e :: x :: xs

/-- Stable sort of tree entries by ascending name:
`entries.sort_by(|a, b| a.name.cmp(&b.name))` in `Store::insert`
(`sort_by` is a stable sort; a stable insertion sort computes the same
list). -/
def sortEntries (l : List TreeEntry) : List TreeEntry := l.foldr insEntry []

/-- The canonicalization `Store::insert` applies before serializing:
trees get their entries sorted by name, everything else is untouched. -/
def canonObj : Obj → Obj
  | .tree es => .tree (sortEntries es)
  | o => o

/-- `EvsError` (error.rs), restricted to the variants the modelled code can
produce.  `CorruptState` inner kinds are flattened
(`invalidObjectName`, `hashMismatch`, `missingObjects` stand for
`CorruptStateDetected(CorruptState::…)`).  `panicTodo` marks a `todo!()`
abort, which produces no `EvsError` at all. -/
inductive Err where
  | ioError (path : Bytes) : Err
  | objectNotInStore (id : Bytes) : Err
  | ambiguousObject (id target : Bytes) : Err
  | invalidObjectName (n : Bytes) : Err
  | hashMismatch (n : Bytes) (real : Hash) : Err
  | missingObjects (first : Hash) (rest : Nat) : Err
  | notACommit (h : Hash) : Err
  | noPreviousCommit : Err
  | integerParseError : Err
  | panicTodo (msg : String) : Err
deriving DecidableEq

/-- A file of the `store/` directory: its name and the object its
(gzip-compressed, MessagePack-encoded) contents decode to. -/
structure StoreFile where
  name : Bytes
  obj : Obj
deriving DecidableEq

/-- The `store/` directory as the list of its files. -/
abbrev Store : Type := List StoreFile

/-- Byte-prefix test, first argument the prefix:
`hash.as_encoded_bytes().starts_with(id.as_bytes())`. -/
def startsWithBytes : Bytes → Bytes → Bool
  | [], _ => true
  | _ :: _, [] => false
  | a :: x, b :: y => a = b && startsWithBytes x y

/-- `matches!(*b, b'0'..=b'9' | b'a'..=b'f')` (store.rs filename check). -/
def isHexByte (b : Nat) : Bool := (48 ≤ b && b ≤ 57) || (97 ≤ b && b ≤ 102)

/-- The directory scan of `Store::lookup`'s slow path: the first matching
file name is remembered; a second match aborts with
`AmbiguousObject(id, first_match)`. -/
def Store.scan (id : Bytes) : Store → Option Bytes → Except Err (Option Bytes)
  | [], acc => .ok acc
  | f :: fs, acc =>
    if startsWithBytes id f.name then
      match acc with
      | some t => .error (.ambiguousObject id t)
      | none => Store.scan id fs (some f.name)
    else Store.scan id fs acc

/-- `Store::insert` (store.rs): canonicalize (sort tree entries by name),
serialize and hash, and create the file unless its name already exists
(content-addressed deduplication trusts the existing name). -/
def Store.insert (sha : Obj → Hash) (s : Store) (o : Obj) : Store × Hash :=
  let o2 := canonObj o
  let h := sha o2
  let nm := hashDisplay h
  if s.any (fun f => f.name == nm) then (s, h) else (⟨nm, o2⟩ :: s, h)

/-- True when `Store.insert` of `o` into `s` will not find its target name
occupied by a different object — no digest collision happens at this
insertion.  Instrumentation only; it has no counterpart in the source,
where SHA-256 collisions are assumed away. -/
def Store.insertClean (sha : Obj → Hash) (s : Store) (o : Obj) : Bool :=
  match s.find? (fun f => f.name == hashDisplay (sha (canonObj o))) with
  | some f => f.obj == canonObj o
  | none => true

/-- `Store::lookup` (store.rs).  Faithful details:
* an id longer than 64 bytes is rejected up front as `ObjectNotInStore`;
* the 64-byte fast path sets `target` from `fs::exists(&path).is_ok()`,
  which is true whether or not the file exists (`Ok(false)` is still `Ok`),
  so absence is only discovered when `fs::read` fails, as an I/O error;
* the shape check (64 bytes, all hex) runs on the chosen target name;
* decompression and deserialization of well-formed files succeed, and the
  digest recomputed over the decompressed bytes is `sha f.obj`, compared
  against the file name (`HashMismatch` on deviation). -/
def Store.lookup (sha : Obj → Hash) (s : Store) (id : Bytes) :
    Except Err (Hash × Obj) :=
  if 64 < id.length then .error (.objectNotInStore id)
  else
    match (if id.length = 64 then .ok (some id) else Store.scan id s none :
        Except Err (Option Bytes)) with
    | .error e => .error e
    | .ok none => .error (.objectNotInStore id)
    | .ok (some nm) =>
      if nm.length = 64 ∧ nm.all isHexByte then
        match s.find? (fun f => f.name == nm) with
        | none => .error (.ioError nm)
        | some f =>
          if nm = hashDisplay (sha f.obj) then .ok (sha f.obj, f.obj)
          else .error (.hashMismatch nm (sha f.obj))
      else .error (.invalidObjectName nm)

/-- `Store::remove` (store.rs): unlink `store/<hex(hash)>`. -/
def Store.remove (s : Store) (h : Hash) : Store :=
  s.filter (fun f => ¬ f.name = hashDisplay h)

/-- Names of a tree's entries. -/
def entryNames (es : List TreeEntry) : List Bytes := es.map (fun e => e.name)

/-- Well-formedness of a single stored object: a stored tree has pairwise
distinct entry names (§3 data-model invariant, maintained by the stage
engine) and 32-byte content hashes. -/
def TreeOk : Obj → Prop
  | .tree es => (entryNames es).Nodup ∧ ∀ e ∈ es, e.content.length = 32
  | _ => True

instance (o : Obj) : Decidable (TreeOk o) := by
  unfold TreeOk
  cases o <;> infer_instance

/-- A healthy `store/` directory: file names are pairwise distinct (it is a
directory), every file is named by the hex digest of its own contents
(content-addressing invariant §3), and stored trees are well-formed. -/
def StoreOk (sha : Obj → Hash) (s : Store) : Prop :=
  (s.map (fun f => f.name)).Nodup ∧
    ∀ f ∈ s, f.name = hashDisplay (sha f.obj) ∧ TreeOk f.obj

instance (sha : Obj → Hash) (s : Store) : Decidable (StoreOk sha s) := by
  unfold StoreOk
  infer_instance

/-- No file of `s` already occupies the name that object `o` would be stored
under, unless it holds `o` itself (no digest collision between `o` and the
current store contents). -/
def CollFree (sha : Obj → Hash) (s : Store) (o : Obj) : Prop :=
  ∀ f ∈ s, f.name = hashDisplay (sha o) → f.obj = o

instance (sha : Obj → Hash) (s : Store) (o : Obj) :
    Decidable (CollFree sha s o) := by
  unfold CollFree
  infer_instance

/-- `RepositoryInfo` (repo.rs): persistent head/stage pointers plus the
in-memory `modified` flag (`#[serde(skip)]`). -/
structure RepositoryInfo where
  head : Hash
  stage : Hash
  modified : Bool
deriving DecidableEq

/-- `Repository` (repo.rs), restricted to the fields the modelled
operations read or write: the store contents and the `RepositoryInfo`.
Paths and the lockfile handle are filesystem plumbing. -/
structure Repository where
  store : Store
  info : RepositoryInfo
deriving DecidableEq

/-- Replace the content of the first entry named `nm`
(`items[index].content = obj` at the first matching index). -/
def replaceFirst : List TreeEntry → Bytes → Hash → List TreeEntry
  | [], _, _ => []
  | e :: es, nm, c =>
    if e.name = nm then ⟨e.name, c⟩ :: es else e :: replaceFirst es nm c

/-- Remove the first entry named `nm` (`items.remove(index)`). -/
def removeFirst : List TreeEntry → Bytes → List TreeEntry
  | [], _ => []
  | e :: es, nm => if e.name = nm then es else e :: removeFirst es nm

/-- The entry list of the tree `update_stage` looked up: a non-tree object
is treated as a fresh empty entry list (it will be overwritten). -/
def itemsOf : Obj → List TreeEntry
  | .tree es => es
  | _ => []

/-- Step 3 of `Repository::update_stage` (repo.rs, the two `if let` blocks
applying the child hash to the entry list).  The returned `Bool` is the
clean-run flag: `true` iff every `Store.insert` performed here was
collision-free (`Store.insertClean`); it has no source counterpart. -/
def applyChild (sha : Obj → Hash) (s : Store) (items : List TreeEntry)
    (next : Bytes) (child : Option Hash) (tree : Hash) :
    Except Err (Store × Option Hash × Bool) :=
  match child with
  | some c =>
    match items.find? (fun e => e.name == next) with
    | some e =>
      if e.content = c then .ok (s, some tree, true)
      else
        let items2 := replaceFirst items next c
        let fl := Store.insertClean sha s (.tree items2)
        let p := Store.insert sha s (.tree items2)
        .ok (p.1, some p.2, fl)
    | none =>
      let items2 := items ++ [⟨next, c⟩]
      let fl := Store.insertClean sha s (.tree items2)
      let p := Store.insert sha s (.tree items2)
      .ok (p.1, some p.2, fl)
  | none =>
    match items.find? (fun e => e.name == next) with
    | some _ =>
      let items2 := removeFirst items next
      if items2 = [] then .ok (s, none, true)
      else
        let fl := Store.insertClean sha s (.tree items2)
        let p := Store.insert sha s (.tree items2)
        .ok (p.1, some p.2, fl)
    | none => .error (.panicTodo "Error for this")

/-- `Repository::update_stage` (repo.rs).  `next` is the component the
source takes with `path.next().unwrap()` and `rest` the remaining
(peekable) components, so the argument pair is never empty.  The store is
threaded explicitly (`self.store` mutates on disk); the extra `Bool` is
the conjunction of the clean-run flags of all `Store.insert`s performed,
instrumentation without source counterpart. -/
def Repository.updateStage (sha : Obj → Hash) (s : Store) (next : Bytes)
    (rest : List Bytes) (obj : Option Hash) (tree : Hash) :
    Except Err (Store × Option Hash × Bool) :=
  match Store.lookup sha s (hashDisplay tree) with
  | .error e => .error e
  | .ok (_, o) =>
    let items := itemsOf o
    match rest with
    | [] => applyChild sha s items next obj tree
    | r :: rs =>
      match items.find? (fun e => e.name == next) with
      | some e =>
        match Repository.updateStage sha s r rs obj e.content with
        | .error er => .error er
        | .ok (s2, child, fl) =>
          match applyChild sha s2 items next child tree with
          | .error er => .error er
          | .ok (s3, res, fl2) => .ok (s3, res, fl && fl2)
      | none =>
        match obj with
        | none => .error (.panicTodo "Same error as later")
        | some _ =>
          let fl0 := Store.insertClean sha s (.tree [])
          let p := Store.insert sha s (.tree [])
          match Repository.updateStage sha p.1 r rs obj p.2 with
          | .error er => .error er
          | .ok (s2, child, fl) =>
            match applyChild sha s2 items next child tree with
            | .error er => .error er
            | .ok (s3, res, fl2) => .ok (s3, res, fl0 && fl && fl2)

/-- `Repository::add` (repo.rs) for a normalized relative path with
components `next :: rest` naming a regular file whose bytes are `data`
(the `canon.is_dir()` false branch): insert the blob, run `update_stage`
with `Some(hash)`, substitute the empty tree for a `None` result, and
re-point the stage only if it changed (`set_stage` marks `modified`).
Path canonicalization and the workspace checks are filesystem plumbing
outside the model.  The extra `Bool` is the clean-run flag of the
`update_stage` call. -/
def Repository.add (sha : Obj → Hash) (r : Repository) (next : Bytes)
    (rest : List Bytes) (data : Bytes) : Except Err (Repository × Bool) :=
  let p := Store.insert sha r.store (.blob data)
  match Repository.updateStage sha p.1 next rest (some p.2) r.info.stage with
  | .error e => .error e
  | .ok (s1, res, fl) =>
    let q := match res with
      | some st => (s1, st)
      | none => Store.insert sha s1 (.tree [])
    if r.info.stage = q.2 then .ok ({ r with store := q.1 }, fl)
    else
      .ok ({ store := q.1,
             info := { head := r.info.head, stage := q.2, modified := true } },
        fl)

/-- `Repository::sub` (repo.rs) for a normalized relative path with
components `next :: rest` (the `relative != ""` branch): run
`update_stage` with `None`, substitute the empty tree for a `None` result,
re-point the stage only if it changed.  The extra `Bool` is the clean-run
flag of the `update_stage` call. -/
def Repository.sub (sha : Obj → Hash) (r : Repository) (next : Bytes)
    (rest : List Bytes) : Except Err (Repository × Bool) :=
  match Repository.updateStage sha r.store next rest none r.info.stage with
  | .error e => .error e
  | .ok (s1, res, fl) =>
    let q := match res with
      | some st => (s1, st)
      | none => Store.insert sha s1 (.tree [])
    if r.info.stage = q.2 then .ok ({ r with store := q.1 }, fl)
    else
      .ok ({ store := q.1,
             info := { head := r.info.head, stage := q.2, modified := true } },
        fl)

/-- The commit object built by `Repository::commit`. -/
def commitObj (r : Repository) (msg nm em : String) (now : Nat) : Obj :=
  .commit ⟨r.info.head, nm, em, r.info.stage, msg, now⟩

/-- `Repository::commit` (repo.rs): insert
`Commit { parent = head, tree = stage, … }`, then `set_head` to its hash
(which marks `modified`).  No comparison of stage against the head's tree
is made anywhere. -/
def Repository.commit (sha : Obj → Hash) (r : Repository) (msg nm em : String)
    (now : Nat) : Repository × Hash :=
  let p := Store.insert sha r.store (commitObj r msg nm em now)
  ({ store := p.1,
     info := { head := p.2, stage := r.info.stage, modified := true } },
    p.2)

/-- `"HEAD"` as bytes. -/
def headBytes : Bytes := [72, 69, 65, 68]

/-- `r#ref.split_once('~')` ('~' is byte 126): split at the first tilde;
when there is none the back count defaults to the string `"0"`. -/
def splitTilde : Bytes → Bytes × Bytes
  | [] => ([], [48])
  | b :: bs =>
    if b = 126 then ([], bs)
    else
      let p := splitTilde bs
      (b :: p.1, p.2)

/-- Whether `splitTilde` found a tilde at all (decides between the split
and the `unwrap_or((ref, "0"))` default). -/
def hasTilde : Bytes → Bool
  | [] => false
  | b :: bs => b = 126 || hasTilde bs

/-- ASCII digit. -/
def isDigitByte (b : Nat) : Bool := 48 ≤ b && b ≤ 57

/-- Digit-string value. -/
def digitsVal : Bytes → Nat → Nat
  | [], acc => acc
  | b :: bs, acc => digitsVal bs (acc * 10 + (b - 48))

/-- `str::parse::<usize>`: an optional leading `+`, then a non-empty digit
string (the usize overflow bound is immaterial here). -/
def parseUsize (b : Bytes) : Option Nat :=
  let digits := match b with
    | 43 :: rest => rest
    | other => other
  if digits ≠ [] ∧ digits.all isDigitByte then some (digitsVal digits 0)
  else none

/-- The ancestor walk of `Repository::resolve`: `back_count` steps of
looking up the current reference; a commit yields the hex of its parent,
`Null` is `NoPreviousCommit`, anything else `NotACommit`. -/
def resolveLoop (sha : Obj → Hash) (s : Store) : Nat → Bytes → Except Err Bytes
  | 0, cur => .ok cur
  | n + 1, cur =>
    match Store.lookup sha s cur with
    | .error e => .error e
    | .ok (_, .commit c) => resolveLoop sha s n (hashDisplay c.parent)
    | .ok (_, .null) => .error .noPreviousCommit
    | .ok (h, _) => .error (.notACommit h)

/-- `Repository::resolve` (repo.rs): split at the first `~`, parse the back
count, substitute `hex(head)` for a literal `HEAD`, then walk ancestors.
No call to `Store::resolve_rest` is made: with back count 0 the
(HEAD-substituted) first component is returned verbatim. -/
def Repository.resolve (sha : Obj → Hash) (r : Repository) (ref : Bytes) :
    Except Err Bytes :=
  let p := if hasTilde ref then splitTilde ref else (ref, [48])
  match parseUsize p.2 with
  | none => .error .integerParseError
  | some back =>
    let first := if p.1 = headBytes then hashDisplay r.info.head else p.1
    resolveLoop sha r.store back first

/-- Set-flavoured insertion into a `HashSet`-modelling list. -/
def setInsert (l : List Hash) (h : Hash) : List Hash :=
  if h ∈ l then l else h :: l

/-- `HashMap::get` on the dependency-count association list. -/
def depsGet (d : List (Hash × Nat)) (k : Hash) : Option Nat :=
  (d.find? (fun p => p.1 == k)).map (fun p => p.2)

/-- `HashMap::insert` (overwrite) on the dependency-count list; keeps keys
pairwise distinct. -/
def depsPut (d : List (Hash × Nat)) (k : Hash) (v : Nat) : List (Hash × Nat) :=
  (k, v) :: d.filter (fun p => ¬ p.1 = k)

/-- `dependencies.insert(k, dependencies.get(&k).unwrap_or(&0) + 1)`. -/
def depsBump (d : List (Hash × Nat)) (k : Hash) : List (Hash × Nat) :=
  depsPut d k ((depsGet d k).getD 0 + 1)

/-- The hashes an object makes `Store::check` require: tree entry contents
in order, a commit's tree then its parent, nothing for blobs and `Null`. -/
def refsOf : Obj → List Hash
  | .tree es => es.map (fun e => e.content)
  | .commit c => [c.tree, c.parent]
  | _ => []

/-- One iteration of `Store::check`'s directory loop (store.rs): validate
the name shape (64 bytes; the `to_str` UTF-8 condition holds for every
byte string the model builds), `lookup` the file by its own name, record
the references it makes, and add its recomputed hash to `found`. -/
def Store.checkStep (sha : Obj → Hash) (s : Store)
    (acc : List Hash × List Hash × List (Hash × Nat)) (f : StoreFile) :
    Except Err (List Hash × List Hash × List (Hash × Nat)) :=
  if f.name.length = 64 then
    match Store.lookup sha s f.name with
    | .error e => .error e
    | .ok (h, o) =>
      let step := (refsOf o).foldl
        (fun rd k => (setInsert rd.1 k, depsBump rd.2 k)) (acc.2.1, acc.2.2)
      .ok (setInsert acc.1 h, step.1, step.2)
  else .error (.invalidObjectName f.name)

/-- The `for obj in self.path.read_dir()` loop of `Store::check`: one
`checkStep` per directory entry, short-circuiting on error. -/
def Store.checkLoop (sha : Obj → Hash) (s : Store) :
    List StoreFile → List Hash × List Hash × List (Hash × Nat) →
    Except Err (List Hash × List Hash × List (Hash × Nat))
  | [], acc => .ok acc
  | f :: fs, acc =>
    match Store.checkStep sha s acc f with
    | .error e => .error e
    | .ok acc2 => Store.checkLoop sha s fs acc2

/-- `Store::check` (store.rs).  Seeds become required with dependency count
1; the directory loop validates and records every file; hashes found but
never required get their count zeroed; leftover required hashes are
`MissingObjects`.  The dependency map (the optional out-parameter of the
source) is always returned. -/
def Store.check (sha : Obj → Hash) (s : Store) (found0 : List Hash)
    (required0 : List Hash) :
    Except Err (List Hash × List (Hash × Nat)) :=
  let seeds := required0.foldl
    (fun rd k => (setInsert rd.1 k, depsPut rd.2 k 1))
    (([] : List Hash), ([] : List (Hash × Nat)))
  match Store.checkLoop sha s s (found0, seeds.1, seeds.2) with
  | .error e => .error e
  | .ok (found, required, deps) =>
    let deps2 := found.foldl
      (fun d h => if h ∈ required then d else depsPut d h 0) deps
    match required.filter (fun h => ¬ h ∈ found) with
    | m :: ms => .error (.missingObjects m ms.length)
    | [] => .ok (found, deps2)

/-- Modelled from the spec: `Repository::gc`.  The driver is invoked by the
CLI (`repo.gc(&self)?`, cli.rs) but its definition is not among the given
sources.  Spec §4.7: "run `check` with dependency-count capture; remove
every hash whose count is 0".  `check` is seeded exactly as
`Repository::check` seeds it: empty `found`, `[head, stage]` required. -/
def Repository.gc (sha : Obj → Hash) (r : Repository) :
    Except Err Repository :=
  match Store.check sha r.store [] [r.info.head, r.info.stage] with
  | .error e => .error e
  | .ok (_, deps) =>
    let zeros := (deps.filter (fun p => p.2 = 0)).map (fun p => p.1)
    .ok { r with store := zeros.foldl Store.remove r.store }

instance exceptDecEq {ε α : Type} [DecidableEq ε] [DecidableEq α] :
    DecidableEq (Except ε α)
  | .error e, .error f =>
    if h : e = f then .isTrue (by rw [h])
    else .isFalse (fun hc => h (Except.error.inj hc))
  | .error _, .ok _ => .isFalse (fun hc => Except.noConfusion hc)
  | .ok _, .error _ => .isFalse (fun hc => Except.noConfusion hc)
  | .ok a, .ok b =>
    if h : a = b then .isTrue (by rw [h])
    else .isFalse (fun hc => h (Except.ok.inj hc))

/-- Structural numeric code of a byte string (test digest ingredient). -/
def encBytes (bs : Bytes) : Nat := bs.foldl (fun a b => a * 1000 + b + 1) 0

/-- Structural numeric code of an entry list (test digest ingredient). -/
def encEntries (es : List TreeEntry) : Nat :=
  es.foldl
    (fun a e => (a * 1000003 + encBytes e.name) * 1000033 + encBytes e.content)
    0

/-- Structural numeric code of a string (test digest ingredient). -/
def encString (s : String) : Nat :=
  s.data.foldl (fun a c => a * 1114112 + c.toNat + 1) 0

/-- Structural numeric code of a commit (test digest ingredient). -/
def encCommit (c : CommitData) : Nat :=
  ((((encBytes c.parent * 1000003 + encString c.name) * 1000003
      + encString c.email) * 1000003 + encBytes c.tree) * 1000003
      + encString c.msg) * 1000003 + c.date

/-- Structural numeric code of an object (test digest ingredient). -/
def encObj : Obj → Nat
  | .null => 0
  | .blob bs => 4 * encBytes bs + 1
  | .tree es => 4 * encEntries es + 2
  | .commit c => 4 * encCommit c + 3

/-- A concrete stand-in digest used to instantiate the abstract `sha` in
witnesses: the low two bytes of a structural code, padded to 32 bytes.
All collision-freedom side conditions are checked by evaluation at each
concrete scenario. -/
def shaT (o : Obj) : Hash :=
  encObj o % 256 :: encObj o / 256 % 256 :: List.replicate 30 0

/-- The store right after `Repository::create`: the `Null` object and the
empty tree. -/
def store0 : Store :=
  [⟨hashDisplay (shaT (.tree [])), .tree []⟩, ⟨hashDisplay (shaT .null), .null⟩]

/-- A freshly created repository: `head = hash(Null)`,
`stage = hash(empty tree)`. -/
def repo0 : Repository :=
  ⟨store0, ⟨shaT .null, shaT (.tree []), false⟩⟩

/-- The blob staged in the concrete scenarios: file `x` with contents `"x"`. -/
def blobX : Obj := .blob [120]

/-- Digest of the scenario blob. -/
def hX : Hash := shaT blobX

/-- The stage tree after `add x`. -/
def treeX : Obj := .tree [⟨[120], hX⟩]

/-- Repository state after `add x` on a fresh repository. -/
def repo1 : Repository :=
  ⟨⟨hashDisplay (shaT treeX), treeX⟩ :: ⟨hashDisplay hX, blobX⟩ :: store0,
   ⟨shaT .null, shaT treeX, true⟩⟩

/-- Repository state after `add x` then `sub x`: the stage is back at the
empty tree, the store keeps the now-garbage blob and tree. -/
def repo2 : Repository := ⟨repo1.store, ⟨shaT .null, shaT (.tree []), true⟩⟩

/-- The first commit of the concrete scenario: parent `Null`, tree the empty
stage. -/
def commit0 : Obj := .commit ⟨shaT .null, "n", "e", shaT (.tree []), "m", 0⟩

/-- Repository after one commit on the fresh repository: head is the commit,
the stage still the empty tree — which equals the head commit's tree, so a
further commit is an empty commit. -/
def repoC : Repository :=
  ⟨⟨hashDisplay (shaT commit0), commit0⟩ :: store0,
   ⟨shaT commit0, shaT (.tree []), true⟩⟩

/-- The stage tree rooted at `t` holds, along the path `next :: rest`, a
chain of stored trees whose innermost entry has content `h`: the
postcondition of a clean `update_stage` run with `Some(h)`, and exactly
the configuration making a second identical run return the root
unchanged. -/
def PathHas (sha : Obj → Hash) (s : Store) : Hash → Bytes → List Bytes →
    Hash → Prop
  | t, next, [], h =>
    ∃ items e, (∃ H, Store.lookup sha s (hashDisplay t) = .ok (H, .tree items)) ∧
      items.find? (fun x => x.name == next) = some e ∧ e.content = h
  | t, next, r :: rs, h =>
    ∃ items e, (∃ H, Store.lookup sha s (hashDisplay t) = .ok (H, .tree items)) ∧
      items.find? (fun x => x.name == next) = some e ∧
      PathHas sha s e.content r rs h

/-- Invariant tying the dependency-count map to the required set during the
`check` loop: a hash is keyed iff it is required, every recorded count is
positive, and keys are pairwise distinct. -/
def DepsInv (dp : List (Hash × Nat)) (rq : List Hash) : Prop :=
  (∀ h : Hash, (depsGet dp h).isSome ↔ h ∈ rq) ∧
    (∀ h v, depsGet dp h = some v → 1 ≤ v) ∧
    (dp.map Prod.fst).Nodup

/-- The test digest is 32 bytes wide, as `sha` must be. -/
theorem shaT_length (o : Obj) : (shaT o).length = 32 := rfl


theorem hexDigit_hex {d : Nat} (hd : d < 16) : isHexByte (hexDigit d) = true := by
  unfold isHexByte hexDigit
  split <;> simp <;> omega

theorem hashDisplay_length (h : Bytes) :
    (hashDisplay h).length = 2 * h.length := by
  induction h with
  | nil => rfl
  | cons b bs ih =>
    simp only [hashDisplay, hexByte, List.length_append, List.length_cons,
      List.length_nil, ih]
    omega

theorem hashDisplay_hex (h : Bytes) : (hashDisplay h).all isHexByte = true := by
  induction h with
  | nil => rfl
  | cons b bs ih =>
    have h1 : b / 16 % 16 < 16 := Nat.mod_lt _ (by omega)
    have h2 : b % 16 < 16 := Nat.mod_lt _ (by omega)
    simp [hashDisplay, hexByte, ih, hexDigit_hex h1, hexDigit_hex h2]

theorem keyed_unique {α β : Type} (key : α → β) {l : List α}
    (hn : (l.map key).Nodup) {x y : α} (hx : x ∈ l) (hy : y ∈ l)
    (hk : key x = key y) : x = y := by
  induction l with
  | nil => cases hx
  | cons a t ih =>
    simp only [List.map_cons, List.nodup_cons] at hn
    rcases List.mem_cons.mp hx with rfl | hx'
    · rcases List.mem_cons.mp hy with rfl | hy'
      · rfl
      · exact absurd (hk ▸ List.mem_map_of_mem key hy') hn.1
    · rcases List.mem_cons.mp hy with rfl | hy'
      · exact absurd (hk ▸ List.mem_map_of_mem key hx') hn.1
      · exact ih hn.2 hx' hy'

theorem find?_key_eq {α β : Type} [BEq β] [LawfulBEq β] (key : α → β) {l : List α}
    (hn : (l.map key).Nodup) {x : α} (hx : x ∈ l) :
    l.find? (fun y => key y == key x) = some x := by
  induction l with
  | nil => cases hx
  | cons a t ih =>
    simp only [List.map_cons, List.nodup_cons] at hn
    rcases List.mem_cons.mp hx with rfl | hx'
    · simp [List.find?_cons_of_pos]
    · have hne : key a ≠ key x :=
        fun h => hn.1 (h ▸ List.mem_map_of_mem key hx')
      rw [List.find?_cons_of_neg _ (by simpa using hne)]
      exact ih hn.2 hx'

theorem insert_eq (sha : Obj → Hash) (s : Store) (o : Obj) :
    Store.insert sha s o =
      if s.any (fun f => f.name == hashDisplay (sha (canonObj o))) then
        (s, sha (canonObj o))
      else (⟨hashDisplay (sha (canonObj o)), canonObj o⟩ :: s, sha (canonObj o)) :=
  rfl

theorem insert_snd (sha : Obj → Hash) (s : Store) (o : Obj) :
    (Store.insert sha s o).2 = sha (canonObj o) := by
  rw [insert_eq]
  split <;> rfl

theorem insert_subset (sha : Obj → Hash) (s : Store) (o : Obj) :
    ∀ f ∈ s, f ∈ (Store.insert sha s o).1 := by
  intro f hf
  rw [insert_eq]
  split
  · exact hf
  · exact List.mem_cons_of_mem _ hf

theorem insert_storeOk (sha : Obj → Hash) {s : Store} {o : Obj}
    (hok : StoreOk sha s) (hto : TreeOk (canonObj o)) :
    StoreOk sha (Store.insert sha s o).1 := by
  rw [insert_eq]
  split
  · exact hok
  · next hany =>
    refine ⟨?_, ?_⟩
    · simp only [List.map_cons, List.nodup_cons]
      refine ⟨?_, hok.1⟩
      intro hmem
      rcases List.mem_map.mp hmem with ⟨g, hg, hgname⟩
      exact hany (List.any_eq_true.mpr ⟨g, hg, by simpa using hgname⟩)
    · intro f hf
      rcases List.mem_cons.mp hf with rfl | hf'
      · exact ⟨rfl, hto⟩
      · exact hok.2 f hf'

theorem insert_mem_of_clean (sha : Obj → Hash) {s : Store} {o : Obj}
    (hcl : Store.insertClean sha s o = true) :
    (⟨hashDisplay (sha (canonObj o)), canonObj o⟩ : StoreFile) ∈
      (Store.insert sha s o).1 := by
  unfold Store.insertClean at hcl
  rw [insert_eq]
  split
  · next hany =>
    rcases List.any_eq_true.mp hany with ⟨g, hg, hgname⟩
    cases hfind : s.find? (fun f => f.name == hashDisplay (sha (canonObj o))) with
    | none =>
      exact absurd hgname (by simpa using List.find?_eq_none.mp hfind g hg)
    | some f =>
      rw [hfind] at hcl
      have hfp := List.find?_some hfind
      have hfmem : f ∈ s := List.mem_of_find?_eq_some hfind
      have hfe : f = ⟨hashDisplay (sha (canonObj o)), canonObj o⟩ := by
        cases f
        simp only [StoreFile.mk.injEq]
        exact ⟨by simpa using hfp, by simpa using hcl⟩
      exact hfe ▸ hfmem
  · exact List.mem_cons_self _ _

theorem collFree_insertClean (sha : Obj → Hash) {s : Store} {o : Obj}
    (hcf : CollFree sha s (canonObj o)) : Store.insertClean sha s o = true := by
  unfold Store.insertClean
  cases hfind : s.find? (fun f => f.name == hashDisplay (sha (canonObj o))) with
  | none => rfl
  | some f =>
    have hfp := List.find?_some hfind
    have hfmem : f ∈ s := List.mem_of_find?_eq_some hfind
    simpa using hcf f hfmem (by simpa using hfp)

theorem insert_mem_of_collFree (sha : Obj → Hash) {s : Store} {o : Obj}
    (hcf : CollFree sha s (canonObj o)) :
    (⟨hashDisplay (sha (canonObj o)), canonObj o⟩ : StoreFile) ∈
      (Store.insert sha s o).1 :=
  insert_mem_of_clean sha (collFree_insertClean sha hcf)

theorem lookup_of_mem (sha : Obj → Hash) {s : Store} {n : Bytes} {o : Obj}
    (hok : StoreOk sha s) (hmem : (⟨n, o⟩ : StoreFile) ∈ s)
    (hw : (sha o).length = 32) :
    Store.lookup sha s n = .ok (sha o, o) := by
  have hname : n = hashDisplay (sha o) := (hok.2 _ hmem).1
  have hlen64 : n.length = 64 := by
    rw [hname, hashDisplay_length, hw]
  have hnlt : ¬ 64 < n.length := by omega
  unfold Store.lookup
  rw [if_neg hnlt, if_pos hlen64]
  dsimp only
  rw [if_pos ⟨hlen64, by rw [hname]; exact hashDisplay_hex _⟩]
  have hfind : s.find? (fun f => f.name == n) = some ⟨n, o⟩ :=
    find?_key_eq (fun f => f.name) hok.1 hmem
  rw [hfind]
  dsimp only
  rw [if_pos hname]

theorem startsWith_le {p q : Bytes} (h : startsWithBytes p q = true) :
    p.length ≤ q.length := by
  induction p generalizing q with
  | nil => exact Nat.zero_le _
  | cons a x ih =>
    cases q with
    | nil => exact absurd h (by simp [startsWithBytes])
    | cons b y =>
      simp only [startsWithBytes, Bool.and_eq_true] at h
      simpa using ih h.2

theorem startsWith_eq {p q : Bytes} (h : startsWithBytes p q = true)
    (hl : q.length ≤ p.length) : p = q := by
  induction p generalizing q with
  | nil =>
    cases q with
    | nil => rfl
    | cons b y => simp at hl
  | cons a x ih =>
    cases q with
    | nil => exact absurd h (by simp [startsWithBytes])
    | cons b y =>
      simp only [startsWithBytes, Bool.and_eq_true, decide_eq_true_eq] at h
      simp only [List.length_cons, Nat.succ_le_succ_iff] at hl
      rw [h.1, ih h.2 hl]

theorem key_const_length_le {α β : Type} (key : α → β) {l : List α} {c : β}
    (hn : (l.map key).Nodup) (hc : ∀ x ∈ l, key x = c) : l.length ≤ 1 := by
  cases l with
  | nil => simp
  | cons a t =>
    cases t with
    | nil => simp
    | cons b u =>
      exfalso
      simp only [List.map_cons, List.nodup_cons] at hn
      have hab : key a = key b := (hc a (by simp)).trans (hc b (by simp)).symm
      exact hn.1 (by simp [hab])

theorem scan_no_match {p : Bytes} :
    ∀ (s : Store), (∀ f ∈ s, startsWithBytes p f.name = false) →
      ∀ acc, Store.scan p s acc = .ok acc := by
  intro s
  induction s with
  | nil => intro _ acc; rfl
  | cons a t ih =>
    intro hno acc
    have ha := hno a (List.mem_cons_self a t)
    simp only [Store.scan, ha, Bool.false_eq_true, if_false]
    exact ih (fun f hf => hno f (List.mem_cons_of_mem _ hf)) acc

theorem scan_some_match {p : Bytes} :
    ∀ (s : Store) (t : Bytes), (∃ f ∈ s, startsWithBytes p f.name = true) →
      Store.scan p s (some t) = .error (.ambiguousObject p t) := by
  intro s
  induction s with
  | nil => rintro t ⟨f, hf, -⟩; cases hf
  | cons a u ih =>
    rintro t ⟨f, hf, hpf⟩
    cases hsa : startsWithBytes p a.name with
    | true => simp [Store.scan, hsa]
    | false =>
      simp only [Store.scan, hsa, Bool.false_eq_true, if_false]
      rcases List.mem_cons.mp hf with rfl | hf'
      · exact absurd hpf (by simp [hsa])
      · exact ih t ⟨f, hf', hpf⟩

theorem scan_single {p : Bytes} :
    ∀ (s : Store) (f : StoreFile),
      s.filter (fun g => startsWithBytes p g.name) = [f] →
      Store.scan p s none = .ok (some f.name) := by
  intro s
  induction s with
  | nil => intro f hf; cases hf
  | cons a t ih =>
    intro f hf
    cases hsa : startsWithBytes p a.name with
    | true =>
      simp only [List.filter_cons, hsa, if_true, List.cons.injEq] at hf
      simp only [Store.scan, hsa, if_true]
      rcases hf with ⟨rfl, ht⟩
      exact scan_no_match t (fun g hg => by
        by_contra hc
        have hmem : g ∈ t.filter (fun g => startsWithBytes p g.name) :=
          List.mem_filter.mpr ⟨hg, by simpa using hc⟩
        simp [ht] at hmem) _
    | false =>
      simp only [List.filter_cons, hsa, Bool.false_eq_true, if_false] at hf
      simp only [Store.scan, hsa, Bool.false_eq_true, if_false]
      exact ih f hf

theorem scan_ambiguous {p : Bytes} :
    ∀ (s : Store), 2 ≤ (s.filter (fun g => startsWithBytes p g.name)).length →
      ∃ ex, Store.scan p s none = .error (.ambiguousObject p ex) := by
  intro s
  induction s with
  | nil => intro h; simp at h
  | cons a t ih =>
    intro h2
    cases hsa : startsWithBytes p a.name with
    | true =>
      simp only [List.filter_cons, hsa, if_true, List.length_cons] at h2
      have h1 : 1 ≤ (t.filter (fun g => startsWithBytes p g.name)).length := by
        omega
      have hne : t.filter (fun g => startsWithBytes p g.name) ≠ [] := by
        intro he
        rw [he] at h1
        simp at h1
      rcases List.exists_mem_of_ne_nil _ hne with ⟨g, hg⟩
      have hgm := List.mem_filter.mp hg
      simp only [Store.scan, hsa, if_true]
      exact ⟨a.name, scan_some_match t a.name ⟨g, hgm.1, hgm.2⟩⟩
    | false =>
      simp only [List.filter_cons, hsa, Bool.false_eq_true, if_false] at h2
      simp only [Store.scan, hsa, Bool.false_eq_true, if_false]
      exact ih h2

/-- C10: for every id strictly longer than 64 bytes (`size_of_val(id)` is
the byte length of the `&str`), `Store::lookup` returns
`ObjectNotInStore(id)` up front; the result is the same for every store
contents, so neither the directory nor any file is consulted, and no I/O
or corruption error can arise. -/
theorem claim_c10 (sha : Obj → Hash) (s : Store) (id : Bytes)
    (hlen : 64 < id.length) :
    Store.lookup sha s id = .error (.objectNotInStore id) := by
  unfold Store.lookup
  rw [if_pos hlen]

/-- C10 witness: a 65-byte id on the freshly created store. -/
theorem claim_c10_witness :
    64 < (List.replicate 65 48 : Bytes).length ∧
      Store.lookup shaT store0 (List.replicate 65 48) =
        .error (.objectNotInStore (List.replicate 65 48)) :=
  ⟨by decide, claim_c10 shaT store0 (List.replicate 65 48) (by decide)⟩

/-- C3 (code bug, evaluation at the failing input): on the freshly created
store, looking up the 64-hex id `aa…a`, which names no file, yields an
I/O error on `store/<id>`, not `ObjectNotInStore(id)`: the fast path sets
`target` from `fs::exists(&path).is_ok()`, which is also true when
`fs::exists` returns `Ok(false)`, so the absent file is only discovered by
`fs::read`. -/
theorem claim_c3_failing_eval :
    Store.lookup shaT store0 (List.replicate 64 97) =
      .error (.ioError (List.replicate 64 97)) ∧
    ∀ b, Store.lookup shaT store0 (List.replicate 64 97) ≠
      .error (.objectNotInStore b) := by
  have h0 : Store.lookup shaT store0 (List.replicate 64 97) =
      .error (.ioError (List.replicate 64 97)) := by decide
  refine ⟨h0, fun b h => ?_⟩
  rw [h0] at h
  exact Err.noConfusion (Except.error.inj h)

/-- C4: for a hash `H` whose object is in a healthy store and any non-empty
prefix `p` of `hex(H)`: if `p` is a prefix of exactly one store filename,
`lookup(p)` returns `H` with its object; if two or more store filenames
share the prefix `p`, `lookup(p)` fails with `AmbiguousObject`. -/
theorem claim_c4 (sha : Obj → Hash) (s : Store) (H : Hash) (O : Obj) (p : Bytes)
    (hwide : ∀ x : Obj, (sha x).length = 32)
    (hok : StoreOk sha s)
    (hmem : (⟨hashDisplay H, O⟩ : StoreFile) ∈ s)
    (hsha : H = sha O)
    (hp : p ≠ [])
    (hpre : startsWithBytes p (hashDisplay H) = true) :
    ((s.filter (fun g => startsWithBytes p g.name)).length = 1 →
      Store.lookup sha s p = .ok (H, O)) ∧
    (2 ≤ (s.filter (fun g => startsWithBytes p g.name)).length →
      ∃ ex, Store.lookup sha s p = .error (.ambiguousObject p ex)) := by
  subst hsha
  have hHlen : (hashDisplay (sha O)).length = 64 := by
    rw [hashDisplay_length, hwide O]
  have hple : p.length ≤ 64 := hHlen ▸ startsWith_le hpre
  constructor
  · intro h1
    by_cases h64 : p.length = 64
    · have hpeq : p = hashDisplay (sha O) := startsWith_eq hpre (by omega)
      rw [hpeq]
      exact lookup_of_mem sha hok hmem (hwide O)
    · rcases List.length_eq_one.mp h1 with ⟨f, hf⟩
      have hmemf : (⟨hashDisplay (sha O), O⟩ : StoreFile) ∈
          s.filter (fun g => startsWithBytes p g.name) :=
        List.mem_filter.mpr ⟨hmem, by simpa using hpre⟩
      rw [hf] at hmemf
      have hfe : f = ⟨hashDisplay (sha O), O⟩ :=
        (List.mem_singleton.mp hmemf).symm
      have hscan := scan_single s f hf
      rw [hfe] at hscan
      have hn1 : ¬ 64 < p.length := by omega
      unfold Store.lookup
      rw [if_neg hn1, if_neg h64, hscan]
      dsimp only
      rw [if_pos ⟨hHlen, hashDisplay_hex _⟩]
      rw [find?_key_eq (fun g => g.name) hok.1 hmem]
      dsimp only
      rw [if_pos rfl]
  · intro h2
    by_cases h64 : p.length = 64
    · exfalso
      have hall : ∀ g ∈ s.filter (fun g => startsWithBytes p g.name),
          g.name = p := by
        intro g hg
        have hgm := List.mem_filter.mp hg
        have hglen : g.name.length = 64 := by
          rw [(hok.2 g hgm.1).1, hashDisplay_length, hwide]
        exact (startsWith_eq (by simpa using hgm.2) (by omega)).symm
      have hsub : ((s.filter (fun g => startsWithBytes p g.name)).map
          (fun g : StoreFile => g.name)).Nodup :=
        List.Nodup.sublist (List.Sublist.map _ (List.filter_sublist s)) hok.1
      have := key_const_length_le (fun g : StoreFile => g.name) hsub hall
      omega
    · rcases scan_ambiguous s h2 with ⟨ex, hscan⟩
      have hn1 : ¬ 64 < p.length := by omega
      refine ⟨ex, ?_⟩
      unfold Store.lookup
      rw [if_neg hn1, if_neg h64, hscan]

/-- C4 witness: on the freshly created store, the prefix `"02"` matches only
the empty tree's file and resolves to it; the prefix `"0"` matches both
files and is ambiguous. -/
theorem claim_c4_witness :
    (store0.filter (fun g => startsWithBytes [48, 50] g.name)).length = 1 ∧
      Store.lookup shaT store0 [48, 50] = .ok (shaT (.tree []), .tree []) ∧
      2 ≤ (store0.filter (fun g => startsWithBytes [48] g.name)).length ∧
      ∃ ex, Store.lookup shaT store0 [48] = .error (.ambiguousObject [48] ex) :=
  ⟨by decide,
   (claim_c4 shaT store0 (shaT (.tree [])) (.tree []) [48, 50] shaT_length
     (by decide) (by decide) rfl (by decide) (by decide)).1 (by decide),
   by decide,
   (claim_c4 shaT store0 (shaT (.tree [])) (.tree []) [48] shaT_length
     (by decide) (by decide) rfl (by decide) (by decide)).2 (by decide)⟩

/-- C1: `insert(O)` returns a hash `H`, and looking up the full 64-hex
rendering of `H` returns the pair `(H, O')`, where `O'` is `O` after the
serialize/deserialize round trip — for a tree, `O` with its entries in the
canonical ascending order by name — and the returned hash equals `H`. -/
theorem claim_c1 (sha : Obj → Hash) (s : Store) (o : Obj)
    (hwide : ∀ x : Obj, (sha x).length = 32)
    (hok : StoreOk sha s)
    (hto : TreeOk (canonObj o))
    (hcf : CollFree sha s (canonObj o)) :
    Store.lookup sha (Store.insert sha s o).1
        (hashDisplay (Store.insert sha s o).2) =
      .ok ((Store.insert sha s o).2, canonObj o) := by
  have hmem := insert_mem_of_collFree sha hcf
  have hok2 := insert_storeOk sha hok hto
  rw [insert_snd]
  exact lookup_of_mem sha hok2 hmem (hwide _)

/-- C1 witness: inserting the blob `"hi"` into the freshly created store and
looking it up by the full hex of its hash. -/
theorem claim_c1_witness :
    StoreOk shaT store0 ∧ CollFree shaT store0 (canonObj (.blob [104, 105])) ∧
      Store.lookup shaT (Store.insert shaT store0 (.blob [104, 105])).1
          (hashDisplay (Store.insert shaT store0 (.blob [104, 105])).2) =
        .ok ((Store.insert shaT store0 (.blob [104, 105])).2,
          canonObj (.blob [104, 105])) :=
  ⟨by decide, by decide,
   claim_c1 shaT store0 (.blob [104, 105]) shaT_length (by decide) (by decide)
     (by decide)⟩

theorem lexLt_asymm_false : ∀ (x y : Bytes), lexLt x y = true →
    lexLt y x = false := by
  intro x
  induction x with
  | nil =>
    intro y h
    cases y with
    | nil => simp [lexLt] at h
    | cons b t => rfl
  | cons a x2 ih =>
    intro y h
    cases y with
    | nil => simp [lexLt] at h
    | cons b y2 =>
      simp only [lexLt] at h ⊢
      by_cases hab : a < b
      · rw [if_neg (by omega : ¬ b < a), if_pos hab]
      · by_cases hba : b < a
        · rw [if_neg hab, if_pos hba] at h
          cases h
        · rw [if_neg hab, if_neg hba] at h
          rw [if_neg hba, if_neg hab]
          exact ih y2 h

theorem lexLt_conn : ∀ (x y : Bytes), lexLt x y = false → lexLt y x = false →
    x = y := by
  intro x
  induction x with
  | nil =>
    intro y h1 h2
    cases y with
    | nil => rfl
    | cons b t => simp [lexLt] at h1
  | cons a x2 ih =>
    intro y h1 h2
    cases y with
    | nil => simp [lexLt] at h2
    | cons b y2 =>
      simp only [lexLt] at h1 h2
      by_cases hab : a < b
      · rw [if_pos hab] at h1
        cases h1
      · by_cases hba : b < a
        · rw [if_pos hba] at h2
          cases h2
        · rw [if_neg hab, if_neg hba] at h1
          rw [if_neg hba, if_neg hab] at h2
          have hval : a = b := by omega
          rw [hval, ih y2 h1 h2]

theorem lexLt_false_trans : ∀ (x y z : Bytes), lexLt y x = false →
    lexLt z y = false → lexLt z x = false := by
  intro x
  induction x with
  | nil =>
    intro y z h1 h2
    cases z <;> rfl
  | cons a x2 ih =>
    intro y z h1 h2
    cases y with
    | nil => simp [lexLt] at h1
    | cons b y2 =>
      cases z with
      | nil => simp [lexLt] at h2
      | cons c z2 =>
        simp only [lexLt] at h1 h2 ⊢
        by_cases hba : b < a
        · rw [if_pos hba] at h1
          cases h1
        · by_cases hcb : c < b
          · rw [if_pos hcb] at h2
            cases h2
          · rw [if_neg hba] at h1
            rw [if_neg hcb] at h2
            by_cases hca : c < a
            · by_cases hab : a < b
              · omega
              · by_cases hbc : b < c
                · omega
                · omega
            · rw [if_neg hca]
              by_cases hac : a < c
              · rw [if_pos hac]
              · rw [if_neg hac]
                rw [if_neg (by omega : ¬ a < b)] at h1
                rw [if_neg (by omega : ¬ b < c)] at h2
                exact ih y2 z2 h1 h2

theorem insEntry_perm (e : TreeEntry) : ∀ l : List TreeEntry,
    (insEntry e l).Perm (e :: l) := by
  intro l
  induction l with
  | nil => exact List.Perm.refl _
  | cons x xs ih =>
    unfold insEntry
    split
    · exact (ih.cons x).trans (List.Perm.swap e x xs)
    · exact List.Perm.refl _

theorem sortEntries_perm (l : List TreeEntry) : (sortEntries l).Perm l := by
  induction l with
  | nil => exact List.Perm.refl _
  | cons e t ih =>
    exact (insEntry_perm e (sortEntries t)).trans (ih.cons e)

theorem insEntry_sorted {l : List TreeEntry}
    (hs : l.Pairwise (fun a b => lexLt b.name a.name = false)) (e : TreeEntry) :
    (insEntry e l).Pairwise (fun a b => lexLt b.name a.name = false) := by
  induction l with
  | nil => simp [insEntry]
  | cons x xs ih =>
    rcases List.pairwise_cons.mp hs with ⟨hx, hxs⟩
    unfold insEntry
    split
    · next hlt =>
      refine List.pairwise_cons.mpr ⟨?_, ih hxs⟩
      intro b hb
      rcases List.mem_cons.mp ((insEntry_perm e xs).mem_iff.mp hb) with rfl | hb2
      · exact lexLt_asymm_false _ _ hlt
      · exact hx b hb2
    · next hnlt =>
      refine List.pairwise_cons.mpr ⟨?_, hs⟩
      intro b hb
      rcases List.mem_cons.mp hb with rfl | hb2
      · simpa using hnlt
      · exact lexLt_false_trans _ _ _ (by simpa using hnlt) (hx b hb2)

theorem sortEntries_sorted (l : List TreeEntry) :
    (sortEntries l).Pairwise (fun a b => lexLt b.name a.name = false) := by
  induction l with
  | nil => simp [sortEntries]
  | cons e t ih => exact insEntry_sorted ih e

theorem pairwise_ne_of_nodup_map {α β : Type} (key : α → β) {l : List α}
    (h : (l.map key).Nodup) : l.Pairwise (fun a b => key a ≠ key b) := by
  induction l with
  | nil => simp
  | cons a t ih =>
    simp only [List.map_cons, List.nodup_cons] at h
    exact List.pairwise_cons.mpr
      ⟨fun b hb he => h.1 (he ▸ List.mem_map_of_mem key hb), ih h.2⟩

theorem sortEntries_eq_of_perm {l1 l2 : List TreeEntry} (hp : l1.Perm l2)
    (hnd : (entryNames l1).Nodup) : sortEntries l1 = sortEntries l2 := by
  have hperm : (sortEntries l1).Perm (sortEntries l2) :=
    (sortEntries_perm l1).trans (hp.trans (sortEntries_perm l2).symm)
  have hnd0 : (l1.map (fun e : TreeEntry => e.name)).Nodup := hnd
  have hnd1 : ((sortEntries l1).map (fun e => e.name)).Nodup :=
    (((sortEntries_perm l1).map (fun e => e.name)).nodup_iff).mpr hnd0
  have hnd2 : ((sortEntries l2).map (fun e => e.name)).Nodup :=
    ((hperm.map (fun e => e.name)).nodup_iff).mp hnd1
  have hstrict : ∀ (m : List TreeEntry),
      m.Pairwise (fun a b => lexLt b.name a.name = false) →
      (m.map (fun e => e.name)).Nodup →
      m.Pairwise (fun a b => lexLt a.name b.name = true) := by
    intro m hm hn
    refine (hm.and (pairwise_ne_of_nodup_map (fun e => e.name) hn)).imp ?_
    rintro a b ⟨hle, hne⟩
    cases hc : lexLt a.name b.name with
    | true => rfl
    | false => exact absurd (lexLt_conn _ _ hc hle) hne
  haveI : IsAntisymm TreeEntry (fun a b => lexLt a.name b.name = true) :=
    ⟨fun a b h1 h2 => absurd h2 (by simp [lexLt_asymm_false _ _ h1])⟩
  exact List.eq_of_perm_of_sorted hperm
    (hstrict _ (sortEntries_sorted l1) hnd1)
    (hstrict _ (sortEntries_sorted l2) hnd2)

/-- C2: for every tree (its entry names are pairwise distinct, §3) and every
permutation of its entry list, `insert` returns the same hash for the
permuted tree as for the original, whatever the store contents, because it
sorts the entries ascending by name before serializing and hashing. -/
theorem claim_c2 (sha : Obj → Hash) (s1 s2 : Store) (es1 es2 : List TreeEntry)
    (hperm : es1.Perm es2) (hnd : (entryNames es1).Nodup) :
    (Store.insert sha s1 (.tree es1)).2 = (Store.insert sha s2 (.tree es2)).2 := by
  rw [insert_snd, insert_snd]
  have hse : sortEntries es1 = sortEntries es2 := sortEntries_eq_of_perm hperm hnd
  simp [canonObj, hse]

/-- C2 witness: a two-entry tree and its reversal hash identically. -/
theorem claim_c2_witness :
    ([⟨[98], [1]⟩, ⟨[97], [2]⟩] : List TreeEntry).Perm
        [⟨[97], [2]⟩, ⟨[98], [1]⟩] ∧
      (entryNames [⟨[98], [1]⟩, ⟨[97], [2]⟩]).Nodup ∧
      (Store.insert shaT store0 (.tree [⟨[98], [1]⟩, ⟨[97], [2]⟩])).2 =
        (Store.insert shaT [] (.tree [⟨[97], [2]⟩, ⟨[98], [1]⟩])).2 :=
  ⟨by decide, by decide,
   claim_c2 shaT store0 [] [⟨[98], [1]⟩, ⟨[97], [2]⟩]
     [⟨[97], [2]⟩, ⟨[98], [1]⟩] (by decide) (by decide)⟩

/-- C7: `commit(msg, name, email, now)` inserts a commit object whose parent
is the current head and whose tree is the current stage, then re-points
head to the new commit's hash, leaving the stage hash unchanged (and
marking the info modified).  No hypothesis relates the stage to the head
commit's tree: the theorem holds unconditionally in them, so empty commits
are created all the same. -/
theorem claim_c7 (sha : Obj → Hash) (r : Repository) (msg nm em : String)
    (now : Nat) (hcf : CollFree sha r.store (commitObj r msg nm em now)) :
    (Repository.commit sha r msg nm em now).2 =
        sha (commitObj r msg nm em now) ∧
      (Repository.commit sha r msg nm em now).1.info.head =
        (Repository.commit sha r msg nm em now).2 ∧
      (Repository.commit sha r msg nm em now).1.info.stage = r.info.stage ∧
      (Repository.commit sha r msg nm em now).1.info.modified = true ∧
      (⟨hashDisplay (sha (commitObj r msg nm em now)),
          commitObj r msg nm em now⟩ : StoreFile) ∈
        (Repository.commit sha r msg nm em now).1.store := by
  have hcf2 : CollFree sha r.store (canonObj (commitObj r msg nm em now)) := hcf
  refine ⟨?_, rfl, rfl, rfl, ?_⟩
  · show (Store.insert sha r.store (commitObj r msg nm em now)).2 = _
    rw [insert_snd]
    rfl
  · exact insert_mem_of_collFree sha hcf2

/-- C7 witness: an empty commit — the stage of `repoC` equals its head
commit's tree, and `commit` still produces a new commit and re-points
head, leaving the stage unchanged. -/
theorem claim_c7_witness :
    CollFree shaT repoC.store (commitObj repoC "m2" "n" "e" 1) ∧
      commit0 = .commit ⟨shaT .null, "n", "e", repoC.info.stage, "m", 0⟩ ∧
      (Repository.commit shaT repoC "m2" "n" "e" 1).1.info.stage =
        repoC.info.stage :=
  ⟨by decide, by decide, (claim_c7 shaT repoC "m2" "n" "e" 1 (by decide)).2.2.1⟩

/-- C8 counterexample: on the freshly created store, `"02"` is a non-empty
prefix of exactly one store filename (the empty tree's), yet
`resolve("02")` returns `"02"` itself — two bytes, not the full
64-character name it abbreviates: `Repository::resolve` never calls
`Store::resolve_rest`, and with back count 0 it returns the first
component verbatim. -/
theorem claim_c8_counterexample :
    Repository.resolve shaT repo0 [48, 50] = .ok [48, 50] ∧
      (store0.filter (fun g => startsWithBytes [48, 50] g.name)).length = 1 ∧
      ([48, 50] : Bytes).length ≠ 64 :=
  ⟨by decide, by decide, by decide⟩

/-- C8 amended: `resolve` performs no prefix expansion (`resolve_rest` is
never invoked): with back count 0 — no `~` in the reference — the first
component is returned verbatim; only a literal `HEAD` is replaced by the
full 64-hex rendering of the head hash. -/
theorem claim_c8_amended (sha : Obj → Hash) (r : Repository) (ref : Bytes)
    (hnt : hasTilde ref = false) :
    (ref ≠ headBytes → Repository.resolve sha r ref = .ok ref) ∧
      Repository.resolve sha r headBytes = .ok (hashDisplay r.info.head) := by
  constructor
  · intro hne
    unfold Repository.resolve
    rw [hnt]
    simp only [Bool.false_eq_true, if_false]
    have hp : parseUsize ((ref, ([48] : Bytes)).2) = some 0 := rfl
    rw [hp]
    dsimp only
    rw [if_neg hne]
    rfl
  · rfl

/-- C8 amended witness: the non-`HEAD` reference `"a"` resolves to itself
verbatim on the fresh repository. -/
theorem claim_c8_witness :
    hasTilde [97] = false ∧ ([97] : Bytes) ≠ headBytes ∧
      Repository.resolve shaT repo0 [97] = .ok [97] :=
  ⟨rfl, by decide, (claim_c8_amended shaT repo0 [97] rfl).1 (by decide)⟩

/-- C6 (code bug, evaluation at the failing input): on the state reached by
`add x` then `sub x`, a second `sub x` — removal of a path that is absent
from the stage — does not surface a `PathNotInStage`-class error result:
`update_stage` reaches the `todo!("Error for this")` placeholder and the
process panics.  The first `sub x` does succeed and resets the stage to
the empty tree, so the second `sub` is exactly the removal-of-missing
case. -/
theorem claim_c6_failing_eval :
    Repository.sub shaT repo1 [120] [] = .ok (repo2, true) ∧
      repo2.info.stage = shaT (.tree []) ∧
      Repository.sub shaT repo2 [120] [] =
        .error (.panicTodo "Error for this") :=
  ⟨by decide, by decide, by decide⟩

theorem replaceFirst_names (nm : Bytes) (c : Hash) :
    ∀ items : List TreeEntry,
      entryNames (replaceFirst items nm c) = entryNames items := by
  intro items
  induction items with
  | nil => rfl
  | cons e es ih =>
    unfold replaceFirst
    split
    · simp [entryNames]
    · simpa [entryNames] using ih

theorem replaceFirst_mem {nm : Bytes} (c : Hash) :
    ∀ {items : List TreeEntry}, (∃ e ∈ items, e.name = nm) →
      (⟨nm, c⟩ : TreeEntry) ∈ replaceFirst items nm c := by
  intro items
  induction items with
  | nil => rintro ⟨e, he, -⟩; cases he
  | cons a es ih =>
    rintro ⟨e, he, hen⟩
    unfold replaceFirst
    split
    · next han => rw [han]; exact List.mem_cons_self _ _
    · next han =>
      rcases List.mem_cons.mp he with rfl | he2
      · exact absurd hen han
      · exact List.mem_cons_of_mem _ (ih ⟨e, he2, hen⟩)

theorem replaceFirst_content {nm : Bytes} {c : Hash} :
    ∀ {items : List TreeEntry}, ∀ e ∈ replaceFirst items nm c,
      e.content = c ∨ e ∈ items := by
  intro items
  induction items with
  | nil => intro e he; cases he
  | cons a es ih =>
    intro e he
    unfold replaceFirst at he
    split at he
    · rcases List.mem_cons.mp he with rfl | he2
      · exact Or.inl rfl
      · exact Or.inr (List.mem_cons_of_mem _ he2)
    · rcases List.mem_cons.mp he with rfl | he2
      · exact Or.inr (List.mem_cons_self _ _)
      · rcases ih e he2 with hc | hm
        · exact Or.inl hc
        · exact Or.inr (List.mem_cons_of_mem _ hm)

theorem find?_none_name {items : List TreeEntry} {nm : Bytes}
    (h : items.find? (fun x => x.name == nm) = none) :
    ∀ e ∈ items, e.name ≠ nm := by
  intro e he heq
  have hne := List.find?_eq_none.mp h e he
  simp [heq] at hne

theorem find?_some_name {items : List TreeEntry} {nm : Bytes} {e : TreeEntry}
    (h : items.find? (fun x => x.name == nm) = some e) :
    e ∈ items ∧ e.name = nm :=
  ⟨List.mem_of_find?_eq_some h, by simpa using List.find?_some h⟩

theorem treeOk_sorted {items2 : List TreeEntry}
    (hnd : (entryNames items2).Nodup)
    (hc : ∀ e ∈ items2, e.content.length = 32) :
    TreeOk (canonObj (.tree items2)) := by
  have hnd0 : (items2.map (fun e : TreeEntry => e.name)).Nodup := hnd
  refine ⟨?_, ?_⟩
  · exact (((sortEntries_perm items2).map (fun e => e.name)).nodup_iff).mpr hnd0
  · intro e he
    exact hc e ((sortEntries_perm items2).mem_iff.mp he)

theorem insert_tree_lookup (sha : Obj → Hash)
    (hwide : ∀ x : Obj, (sha x).length = 32) {s : Store}
    {items2 : List TreeEntry} (hok : StoreOk sha s)
    (hnd : (entryNames items2).Nodup)
    (hc : ∀ e ∈ items2, e.content.length = 32)
    (hcl : Store.insertClean sha s (.tree items2) = true) :
    StoreOk sha (Store.insert sha s (.tree items2)).1 ∧
      Store.lookup sha (Store.insert sha s (.tree items2)).1
          (hashDisplay (Store.insert sha s (.tree items2)).2) =
        .ok ((Store.insert sha s (.tree items2)).2,
          .tree (sortEntries items2)) := by
  have hto := treeOk_sorted hnd hc
  have hok1 := insert_storeOk sha hok hto
  have hmem := insert_mem_of_clean sha hcl
  refine ⟨hok1, ?_⟩
  rw [insert_snd]
  exact lookup_of_mem sha hok1 hmem (hwide _)

theorem find?_sorted {items2 : List TreeEntry} {nm : Bytes} {c : Hash}
    (hnd : (entryNames items2).Nodup)
    (hmem : (⟨nm, c⟩ : TreeEntry) ∈ items2) :
    (sortEntries items2).find? (fun x => x.name == nm) = some ⟨nm, c⟩ := by
  have hnd0 : (items2.map (fun e : TreeEntry => e.name)).Nodup := hnd
  have hnd2 : ((sortEntries items2).map (fun e => e.name)).Nodup :=
    (((sortEntries_perm items2).map (fun e => e.name)).nodup_iff).mpr hnd0
  exact find?_key_eq (fun e => e.name) hnd2
    ((sortEntries_perm items2).symm.mem_iff.mp hmem)

theorem lookup_fast_inv (sha : Obj → Hash) {s : Store} {t H : Hash} {o : Obj}
    (ht : t.length = 32)
    (h : Store.lookup sha s (hashDisplay t) = .ok (H, o)) :
    H = sha o ∧ ((⟨hashDisplay t, o⟩ : StoreFile) ∈ s) ∧
      hashDisplay t = hashDisplay (sha o) := by
  have hlen : (hashDisplay t).length = 64 := by rw [hashDisplay_length, ht]
  have hnlt : ¬ 64 < (hashDisplay t).length := by omega
  unfold Store.lookup at h
  rw [if_neg hnlt, if_pos hlen] at h
  dsimp only at h
  rw [if_pos ⟨hlen, hashDisplay_hex t⟩] at h
  cases hfind : s.find? (fun f => f.name == hashDisplay t) with
  | none =>
    rw [hfind] at h
    cases h
  | some f =>
    rw [hfind] at h
    dsimp only at h
    split at h
    · next hdisp =>
      have hinj := Except.ok.inj h
      have hH : sha f.obj = H := congrArg Prod.fst hinj
      have ho : f.obj = o := congrArg Prod.snd hinj
      have hfmem : f ∈ s := List.mem_of_find?_eq_some hfind
      have hfname : f.name = hashDisplay t := by
        simpa using List.find?_some hfind
      subst ho
      refine ⟨hH.symm, ?_, hdisp⟩
      have hfe : f = ⟨hashDisplay t, f.obj⟩ := by
        cases f
        simpa using hfname
      exact hfe ▸ hfmem
    · cases h

theorem lookup_mono (sha : Obj → Hash) {s s2 : Store} {t H : Hash} {o : Obj}
    (hwide : ∀ x : Obj, (sha x).length = 32)
    (hok2 : StoreOk sha s2) (hsub : ∀ f ∈ s, f ∈ s2) (ht : t.length = 32)
    (h : Store.lookup sha s (hashDisplay t) = .ok (H, o)) :
    Store.lookup sha s2 (hashDisplay t) = .ok (H, o) := by
  obtain ⟨hH, hmem, hdisp⟩ := lookup_fast_inv sha ht h
  rw [hH]
  exact lookup_of_mem sha hok2 (hsub _ hmem) (hwide o)

theorem itemsOf_nodup {o : Obj} (hto : TreeOk o) :
    (entryNames (itemsOf o)).Nodup := by
  cases o with
  | tree es => exact hto.1
  | null => simp [itemsOf, entryNames]
  | blob d => simp [itemsOf, entryNames]
  | commit c => simp [itemsOf, entryNames]

theorem itemsOf_content {o : Obj} (hto : TreeOk o) :
    ∀ e ∈ itemsOf o, e.content.length = 32 := by
  cases o with
  | tree es => exact hto.2
  | null => intro e he; simp [itemsOf] at he
  | blob d => intro e he; simp [itemsOf] at he
  | commit c => intro e he; simp [itemsOf] at he

theorem itemsOf_cases (o : Obj) :
    (∃ es, o = .tree es ∧ itemsOf o = es) ∨ itemsOf o = [] := by
  cases o with
  | tree es => exact Or.inl ⟨es, rfl, rfl⟩
  | null => exact Or.inr rfl
  | blob d => exact Or.inr rfl
  | commit c => exact Or.inr rfl

theorem treeOk_empty : TreeOk (canonObj (.tree [])) := by
  refine ⟨?_, ?_⟩
  · simp [sortEntries, entryNames]
  · intro e he
    simp [sortEntries] at he

theorem pathHas_mono (sha : Obj → Hash) (hwide : ∀ x : Obj, (sha x).length = 32)
    {s s2 : Store} (hok : StoreOk sha s) (hok2 : StoreOk sha s2)
    (hsub : ∀ f ∈ s, f ∈ s2) :
    ∀ (rest : List Bytes) (t : Hash) (next : Bytes) (h : Hash),
      t.length = 32 → PathHas sha s t next rest h →
      PathHas sha s2 t next rest h := by
  intro rest
  induction rest with
  | nil =>
    rintro t next h ht ⟨items, e, ⟨H, hl⟩, hfind, hc⟩
    exact ⟨items, e, ⟨H, lookup_mono sha hwide hok2 hsub ht hl⟩, hfind, hc⟩
  | cons r rs ih =>
    rintro t next h ht ⟨items, e, ⟨H, hl⟩, hfind, hrec⟩
    have hinv := lookup_fast_inv sha ht hl
    have hto : TreeOk (Obj.tree items) := (hok.2 _ hinv.2.1).2
    have hec : e.content.length = 32 := hto.2 e (find?_some_name hfind).1
    exact ⟨items, e, ⟨H, lookup_mono sha hwide hok2 hsub ht hl⟩, hfind,
      ih e.content r h hec hrec⟩

theorem updateStage_of_pathHas (sha : Obj → Hash) :
    ∀ (rest : List Bytes) (s : Store) (t : Hash) (next : Bytes) (h : Hash),
      PathHas sha s t next rest h →
      Repository.updateStage sha s next rest (some h) t =
        .ok (s, some t, true) := by
  intro rest
  induction rest with
  | nil =>
    rintro s t next h ⟨items, e, ⟨H, hl⟩, hfind, hc⟩
    unfold Repository.updateStage
    rw [hl]
    dsimp only [itemsOf]
    unfold applyChild
    dsimp only
    rw [hfind]
    dsimp only
    rw [if_pos hc]
  | cons r rs ih =>
    rintro s t next h ⟨items, e, ⟨H, hl⟩, hfind, hrec⟩
    unfold Repository.updateStage
    rw [hl]
    dsimp only [itemsOf]
    rw [hfind]
    dsimp only
    rw [ih s e.content r h hrec]
    dsimp only
    have happ : applyChild sha s items next (some e.content) t =
        .ok (s, some t, true) := by
      unfold applyChild
      dsimp only
      rw [hfind]
      dsimp only
      rw [if_pos rfl]
    rw [happ]
    rfl

theorem updateStage_run1 (sha : Obj → Hash)
    (hwide : ∀ x : Obj, (sha x).length = 32) :
    ∀ (rest : List Bytes) (s : Store) (t : Hash) (next : Bytes) (h : Hash)
      (s1 : Store) (res : Option Hash),
      StoreOk sha s → t.length = 32 → h.length = 32 →
      Repository.updateStage sha s next rest (some h) t = .ok (s1, res, true) →
      ∃ t1, res = some t1 ∧ t1.length = 32 ∧ (∀ f ∈ s, f ∈ s1) ∧
        StoreOk sha s1 ∧ PathHas sha s1 t1 next rest h := by
  intro rest
  induction rest with
  | nil =>
    intro s t next h s1 res hok ht hh hrun
    unfold Repository.updateStage at hrun
    cases hl : Store.lookup sha s (hashDisplay t) with
    | error e =>
      rw [hl] at hrun
      simp at hrun
    | ok pr =>
      obtain ⟨H, o⟩ := pr
      rw [hl] at hrun
      dsimp only at hrun
      have hoin := lookup_fast_inv sha ht hl
      have hto : TreeOk o := (hok.2 _ hoin.2.1).2
      have hnd := itemsOf_nodup hto
      have hcon := itemsOf_content hto
      unfold applyChild at hrun
      dsimp only at hrun
      cases hfind : (itemsOf o).find? (fun x => x.name == next) with
      | some e =>
        rw [hfind] at hrun
        dsimp only at hrun
        by_cases hc : e.content = h
        · rw [if_pos hc] at hrun
          simp only [Except.ok.injEq, Prod.mk.injEq] at hrun
          obtain ⟨hs1, hres, -⟩ := hrun
          subst hs1
          refine ⟨t, hres.symm, ht, fun f hf => hf, hok, ?_⟩
          rcases itemsOf_cases o with ⟨es, rfl, hes⟩ | hnil
          · rw [hes] at hfind
            exact ⟨es, e, ⟨H, hl⟩, hfind, hc⟩
          · rw [hnil] at hfind
            cases hfind
        · rw [if_neg hc] at hrun
          simp only [Except.ok.injEq, Prod.mk.injEq] at hrun
          obtain ⟨hs1, hres, hfl⟩ := hrun
          have hent := find?_some_name hfind
          have hnd2 : (entryNames (replaceFirst (itemsOf o) next h)).Nodup := by
            rw [replaceFirst_names]
            exact hnd
          have hcon2 : ∀ x ∈ replaceFirst (itemsOf o) next h,
              x.content.length = 32 := by
            intro x hx
            rcases replaceFirst_content x hx with hc2 | hm
            · rw [hc2]; exact hh
            · exact hcon x hm
          have hpair := insert_tree_lookup sha hwide hok hnd2 hcon2 hfl
          refine ⟨(Store.insert sha s
              (.tree (replaceFirst (itemsOf o) next h))).2, hres.symm,
            by rw [insert_snd]; exact hwide _, ?_, hs1 ▸ hpair.1, ?_⟩
          · intro f hf
            rw [← hs1]
            exact insert_subset sha s _ f hf
          · exact ⟨sortEntries (replaceFirst (itemsOf o) next h), ⟨next, h⟩,
              ⟨_, hs1 ▸ hpair.2⟩,
              find?_sorted hnd2 (replaceFirst_mem h ⟨e, hent.1, hent.2⟩), rfl⟩
      | none =>
        rw [hfind] at hrun
        dsimp only at hrun
        simp only [Except.ok.injEq, Prod.mk.injEq] at hrun
        obtain ⟨hs1, hres, hfl⟩ := hrun
        have hnames := find?_none_name hfind
        have hnd2 : (entryNames (itemsOf o ++ [⟨next, h⟩])).Nodup := by
          simpa [entryNames, List.nodup_append] using ⟨hnd, hnames⟩
        have hcon2 : ∀ x ∈ itemsOf o ++ [⟨next, h⟩], x.content.length = 32 := by
          intro x hx
          rcases List.mem_append.mp hx with hm | hm
          · exact hcon x hm
          · rw [List.mem_singleton.mp hm]
            exact hh
        have hpair := insert_tree_lookup sha hwide hok hnd2 hcon2 hfl
        refine ⟨(Store.insert sha s (.tree (itemsOf o ++ [⟨next, h⟩]))).2,
          hres.symm, by rw [insert_snd]; exact hwide _, ?_, hs1 ▸ hpair.1, ?_⟩
        · intro f hf
          rw [← hs1]
          exact insert_subset sha s _ f hf
        · exact ⟨sortEntries (itemsOf o ++ [⟨next, h⟩]), ⟨next, h⟩,
            ⟨_, hs1 ▸ hpair.2⟩,
            find?_sorted hnd2 (List.mem_append.mpr
              (Or.inr (List.mem_singleton.mpr rfl))), rfl⟩
  | cons r rs ih =>
    intro s t next h s1 res hok ht hh hrun
    unfold Repository.updateStage at hrun
    cases hl : Store.lookup sha s (hashDisplay t) with
    | error e =>
      rw [hl] at hrun
      simp at hrun
    | ok pr =>
      obtain ⟨H, o⟩ := pr
      rw [hl] at hrun
      dsimp only at hrun
      have hoin := lookup_fast_inv sha ht hl
      have hto : TreeOk o := (hok.2 _ hoin.2.1).2
      have hnd := itemsOf_nodup hto
      have hcon := itemsOf_content hto
      cases hfind : (itemsOf o).find? (fun x => x.name == next) with
      | some e =>
        rw [hfind] at hrun
        dsimp only at hrun
        have hec : e.content.length = 32 := hcon e (find?_some_name hfind).1
        cases hrec : Repository.updateStage sha s r rs (some h) e.content with
        | error er =>
          rw [hrec] at hrun
          simp at hrun
        | ok tr =>
          obtain ⟨s2, child, fl⟩ := tr
          rw [hrec] at hrun
          dsimp only at hrun
          cases happ : applyChild sha s2 (itemsOf o) next child t with
          | error er =>
            rw [happ] at hrun
            simp at hrun
          | ok tr2 =>
            obtain ⟨s3, res2, fl2⟩ := tr2
            rw [happ] at hrun
            dsimp only at hrun
            simp only [Except.ok.injEq, Prod.mk.injEq, Bool.and_eq_true]
              at hrun
            obtain ⟨hs3, hres2, hfl, hfl2⟩ := hrun
            rw [hfl] at hrec
            obtain ⟨c1, hchild, hc1len, hsub2, hok2, hph2⟩ :=
              ih s e.content r h s2 child hok hec hh hrec
            subst hchild
            unfold applyChild at happ
            dsimp only at happ
            rw [hfind] at happ
            dsimp only at happ
            by_cases hceq : e.content = c1
            · rw [if_pos hceq] at happ
              simp only [Except.ok.injEq, Prod.mk.injEq] at happ
              obtain ⟨hs2e, hres2e, -⟩ := happ
              refine ⟨t, by rw [← hres2, ← hres2e], ht, ?_, ?_, ?_⟩
              · intro f hf
                rw [← hs3, ← hs2e]
                exact hsub2 f hf
              · rw [← hs3, ← hs2e]
                exact hok2
              · rcases itemsOf_cases o with ⟨es, rfl, hes⟩ | hnil
                · rw [hes] at hfind
                  have hok1 : StoreOk sha s1 := by
                    rw [← hs3, ← hs2e]
                    exact hok2
                  have hsub1 : ∀ f ∈ s, f ∈ s1 := by
                    intro f hf
                    rw [← hs3, ← hs2e]
                    exact hsub2 f hf
                  refine ⟨es, e, ⟨H, lookup_mono sha hwide hok1 hsub1 ht hl⟩,
                    hfind, ?_⟩
                  rw [hceq]
                  have hsub21 : ∀ f ∈ s2, f ∈ s1 := by
                    intro f hf
                    rw [← hs3, ← hs2e]
                    exact hf
                  exact pathHas_mono sha hwide hok2 hok1 hsub21 rs c1 r h
                    hc1len hph2
                · rw [hnil] at hfind
                  cases hfind
            · rw [if_neg hceq] at happ
              simp only [Except.ok.injEq, Prod.mk.injEq] at happ
              obtain ⟨hs3e, hres2e, hfl2e⟩ := happ
              have hent := find?_some_name hfind
              have hnd2 : (entryNames
                  (replaceFirst (itemsOf o) next c1)).Nodup := by
                rw [replaceFirst_names]
                exact hnd
              have hcon2 : ∀ x ∈ replaceFirst (itemsOf o) next c1,
                  x.content.length = 32 := by
                intro x hx
                rcases replaceFirst_content x hx with hc2 | hm
                · rw [hc2]; exact hc1len
                · exact hcon x hm
              have hfl2' : Store.insertClean sha s2
                  (.tree (replaceFirst (itemsOf o) next c1)) = true := by
                rw [hfl2e]
                exact hfl2
              have hpair := insert_tree_lookup sha hwide hok2 hnd2 hcon2 hfl2'
              have hs1eq : s1 = (Store.insert sha s2
                  (.tree (replaceFirst (itemsOf o) next c1))).1 := by
                rw [← hs3, ← hs3e]
              refine ⟨(Store.insert sha s2
                  (.tree (replaceFirst (itemsOf o) next c1))).2,
                by rw [← hres2, ← hres2e],
                by rw [insert_snd]; exact hwide _, ?_, ?_, ?_⟩
              · intro f hf
                rw [hs1eq]
                exact insert_subset sha s2 _ f (hsub2 f hf)
              · rw [hs1eq]
                exact hpair.1
              · have hsub21 : ∀ f ∈ s2, f ∈ s1 := by
                  intro f hf
                  rw [hs1eq]
                  exact insert_subset sha s2 _ f hf
                have hok1 : StoreOk sha s1 := by
                  rw [hs1eq]
                  exact hpair.1
                refine ⟨sortEntries (replaceFirst (itemsOf o) next c1),
                  ⟨next, c1⟩, ⟨_, by rw [hs1eq]; exact hpair.2⟩,
                  find?_sorted hnd2 (replaceFirst_mem c1 ⟨e, hent.1, hent.2⟩),
                  ?_⟩
                exact pathHas_mono sha hwide hok2 hok1 hsub21 rs c1 r h
                  hc1len hph2
      | none =>
        rw [hfind] at hrun
        dsimp only at hrun
        cases hrec : Repository.updateStage sha
            (Store.insert sha s (.tree [])).1 r rs (some h)
            (Store.insert sha s (.tree [])).2 with
        | error er =>
          rw [hrec] at hrun
          simp at hrun
        | ok tr =>
          obtain ⟨s2, child, fl⟩ := tr
          rw [hrec] at hrun
          dsimp only at hrun
          cases happ : applyChild sha s2 (itemsOf o) next child t with
          | error er =>
            rw [happ] at hrun
            simp at hrun
          | ok tr2 =>
            obtain ⟨s3, res2, fl2⟩ := tr2
            rw [happ] at hrun
            dsimp only at hrun
            simp only [Except.ok.injEq, Prod.mk.injEq, Bool.and_eq_true]
              at hrun
            obtain ⟨hs3, hres2, ⟨hfl0, hfl⟩, hfl2⟩ := hrun
            have hokE : StoreOk sha (Store.insert sha s (.tree [])).1 :=
              insert_storeOk sha hok treeOk_empty
            have hlenE : (Store.insert sha s (.tree [])).2.length = 32 := by
              rw [insert_snd]
              exact hwide _
            rw [hfl] at hrec
            obtain ⟨c1, hchild, hc1len, hsub2, hok2, hph2⟩ :=
              ih _ _ r h s2 child hokE hlenE hh hrec
            subst hchild
            unfold applyChild at happ
            dsimp only at happ
            rw [hfind] at happ
            dsimp only at happ
            simp only [Except.ok.injEq, Prod.mk.injEq] at happ
            obtain ⟨hs3e, hres2e, hfl2e⟩ := happ
            have hnames := find?_none_name hfind
            have hnd2 : (entryNames (itemsOf o ++ [⟨next, c1⟩])).Nodup := by
              simpa [entryNames, List.nodup_append] using ⟨hnd, hnames⟩
            have hcon2 : ∀ x ∈ itemsOf o ++ [⟨next, c1⟩],
                x.content.length = 32 := by
              intro x hx
              rcases List.mem_append.mp hx with hm | hm
              · exact hcon x hm
              · rw [List.mem_singleton.mp hm]
                exact hc1len
            have hfl2' : Store.insertClean sha s2
                (.tree (itemsOf o ++ [⟨next, c1⟩])) = true := by
              rw [hfl2e]
              exact hfl2
            have hpair := insert_tree_lookup sha hwide hok2 hnd2 hcon2 hfl2'
            have hs1eq : s1 = (Store.insert sha s2
                (.tree (itemsOf o ++ [⟨next, c1⟩]))).1 := by
              rw [← hs3, ← hs3e]
            have hsubE : ∀ f ∈ s, f ∈ s2 := by
              intro f hf
              exact hsub2 f (insert_subset sha s _ f hf)
            refine ⟨(Store.insert sha s2
                (.tree (itemsOf o ++ [⟨next, c1⟩]))).2,
              by rw [← hres2, ← hres2e],
              by rw [insert_snd]; exact hwide _, ?_, ?_, ?_⟩
            · intro f hf
              rw [hs1eq]
              exact insert_subset sha s2 _ f (hsubE f hf)
            · rw [hs1eq]
              exact hpair.1
            · have hsub21 : ∀ f ∈ s2, f ∈ s1 := by
                intro f hf
                rw [hs1eq]
                exact insert_subset sha s2 _ f hf
              have hok1 : StoreOk sha s1 := by
                rw [hs1eq]
                exact hpair.1
              refine ⟨sortEntries (itemsOf o ++ [⟨next, c1⟩]), ⟨next, c1⟩,
                ⟨_, by rw [hs1eq]; exact hpair.2⟩,
                find?_sorted hnd2 (List.mem_append.mpr
                  (Or.inr (List.mem_singleton.mpr rfl))), ?_⟩
              exact pathHas_mono sha hwide hok2 hok1 hsub21 rs c1 r h
                hc1len hph2

theorem treeOk_blob (d : Bytes) : TreeOk (canonObj (.blob d)) := trivial

theorem insert_name_mem (sha : Obj → Hash) (s : Store) (o : Obj) :
    ∃ f ∈ (Store.insert sha s o).1,
      f.name = hashDisplay (sha (canonObj o)) := by
  rw [insert_eq]
  split
  · next hany =>
    rcases List.any_eq_true.mp hany with ⟨g, hg, hgn⟩
    exact ⟨g, hg, by simpa using hgn⟩
  · exact ⟨_, List.mem_cons_self _ _, rfl⟩

theorem insert_noop (sha : Obj → Hash) {s : Store} {o : Obj}
    (hex : ∃ f ∈ s, f.name = hashDisplay (sha (canonObj o))) :
    Store.insert sha s o = (s, sha (canonObj o)) := by
  rcases hex with ⟨f, hf, hn⟩
  rw [insert_eq, if_pos (List.any_eq_true.mpr ⟨f, hf, by simpa using hn⟩)]

theorem add_fixpoint (sha : Obj → Hash) {r1 : Repository} {next : Bytes}
    {rest : List Bytes} {data : Bytes}
    (hname : ∃ f ∈ r1.store, f.name = hashDisplay (sha (canonObj (.blob data))))
    (hph : PathHas sha r1.store r1.info.stage next rest
      (sha (canonObj (.blob data)))) :
    Repository.add sha r1 next rest data = .ok (r1, true) := by
  unfold Repository.add
  dsimp only
  rw [insert_noop sha hname]
  dsimp only
  rw [updateStage_of_pathHas sha rest r1.store r1.info.stage next _ hph]
  dsimp only
  rw [if_pos rfl]

/-- C5: running `add P` a second time with unchanged file contents returns
the repository exactly as the first `add` left it — the same stage hash,
the store untouched, and the info not marked modified (the second call is
the identity on the whole state); and within `update_stage`, whenever the
existing entry for the current name already has content equal to the new
child hash, the current tree hash itself is returned (subtree sharing).
The `true` flag in `h1` states that the first run met no digest
collision. -/
theorem claim_c5 (sha : Obj → Hash) (r r1 : Repository) (next : Bytes)
    (rest : List Bytes) (data : Bytes)
    (hwide : ∀ x : Obj, (sha x).length = 32)
    (hok : StoreOk sha r.store)
    (hst : r.info.stage.length = 32)
    (h1 : Repository.add sha r next rest data = .ok (r1, true)) :
    Repository.add sha r1 next rest data = .ok (r1, true) ∧
      (∀ (s : Store) (t : Hash) (items : List TreeEntry) (nm : Bytes)
        (c : Hash) (e : TreeEntry) (H : Hash),
        Store.lookup sha s (hashDisplay t) = .ok (H, .tree items) →
        items.find? (fun x => x.name == nm) = some e → e.content = c →
        Repository.updateStage sha s nm [] (some c) t =
          .ok (s, some t, true)) := by
  refine ⟨?_, ?_⟩
  swap
  · intro s t items nm c e H hl hfind hc
    exact updateStage_of_pathHas sha [] s t nm c ⟨items, e, ⟨H, hl⟩, hfind, hc⟩
  have hokB : StoreOk sha (Store.insert sha r.store (.blob data)).1 :=
    insert_storeOk sha hok (treeOk_blob data)
  have hBlen : (Store.insert sha r.store (.blob data)).2.length = 32 := by
    rw [insert_snd]
    exact hwide _
  unfold Repository.add at h1
  dsimp only at h1
  cases hrun : Repository.updateStage sha
      (Store.insert sha r.store (.blob data)).1 next rest
      (some (Store.insert sha r.store (.blob data)).2) r.info.stage with
  | error e =>
    rw [hrun] at h1
    simp at h1
  | ok tr =>
    obtain ⟨s1, res, fl⟩ := tr
    rw [hrun] at h1
    dsimp only at h1
    cases res with
    | none =>
      dsimp only at h1
      split at h1 <;>
      · simp only [Except.ok.injEq, Prod.mk.injEq] at h1
        obtain ⟨-, hfl⟩ := h1
        rw [hfl] at hrun
        obtain ⟨t1, ht1, -⟩ := updateStage_run1 sha hwide rest _ _ next _ _ _
          hokB hst hBlen hrun
        cases ht1
    | some st =>
      dsimp only at h1
      have hmemB := insert_name_mem sha r.store (.blob data)
      split at h1
      · next heq =>
        simp only [Except.ok.injEq, Prod.mk.injEq] at h1
        obtain ⟨hr1, hfl⟩ := h1
        rw [hfl] at hrun
        obtain ⟨t1, ht1, ht1len, hsub, hok1, hph⟩ :=
          updateStage_run1 sha hwide rest _ _ next _ _ _ hokB hst hBlen hrun
        have hst1 : st = t1 := Option.some.inj ht1
        have hr1store : r1.store = s1 := by rw [← hr1]
        have hr1stage : r1.info.stage = t1 := by
          rw [← hr1]
          exact heq.trans hst1
        refine add_fixpoint sha ?_ ?_
        · rw [hr1store]
          rcases hmemB with ⟨f, hf, hfn⟩
          exact ⟨f, hsub f hf, hfn⟩
        · rw [hr1store, hr1stage]
          rw [insert_snd] at hph
          exact hph
      · next hne =>
        simp only [Except.ok.injEq, Prod.mk.injEq] at h1
        obtain ⟨hr1, hfl⟩ := h1
        rw [hfl] at hrun
        obtain ⟨t1, ht1, ht1len, hsub, hok1, hph⟩ :=
          updateStage_run1 sha hwide rest _ _ next _ _ _ hokB hst hBlen hrun
        have hst1 : st = t1 := Option.some.inj ht1
        have hr1store : r1.store = s1 := by rw [← hr1]
        have hr1stage : r1.info.stage = t1 := by
          rw [← hr1]
          exact hst1
        refine add_fixpoint sha ?_ ?_
        · rw [hr1store]
          rcases hmemB with ⟨f, hf, hfn⟩
          exact ⟨f, hsub f hf, hfn⟩
        · rw [hr1store, hr1stage]
          rw [insert_snd] at hph
          exact hph

theorem find?_fst_filter_ne {k q : Hash} (hne : ¬ q = k) :
    ∀ dp : List (Hash × Nat),
      (dp.filter (fun p => ¬ p.1 = k)).find? (fun p => p.1 == q) =
        dp.find? (fun p => p.1 == q) := by
  intro dp
  induction dp with
  | nil => rfl
  | cons p t ih =>
    by_cases hpk : p.1 = k
    · rw [List.filter_cons_of_neg (by simpa using hpk)]
      rw [List.find?_cons_of_neg _ (by simp [hpk]; exact fun hc => hne hc.symm)]
      exact ih
    · rw [List.filter_cons_of_pos (by simpa using hpk)]
      by_cases hpq : p.1 = q
      · rw [List.find?_cons_of_pos _ (by simpa using hpq),
          List.find?_cons_of_pos _ (by simpa using hpq)]
      · rw [List.find?_cons_of_neg _ (by simpa using hpq),
          List.find?_cons_of_neg _ (by simpa using hpq)]
        exact ih

theorem depsGet_put (dp : List (Hash × Nat)) (k : Hash) (v : Nat) (q : Hash) :
    depsGet (depsPut dp k v) q = if q = k then some v else depsGet dp q := by
  unfold depsGet depsPut
  by_cases hqk : q = k
  · rw [if_pos hqk]
    rw [List.find?_cons_of_pos _ (by simpa using hqk.symm)]
    rfl
  · rw [if_neg hqk]
    rw [List.find?_cons_of_neg _ (by simp; exact fun hc => hqk hc.symm)]
    rw [find?_fst_filter_ne hqk]

theorem depsGet_bump (dp : List (Hash × Nat)) (k q : Hash) :
    depsGet (depsBump dp k) q =
      if q = k then some ((depsGet dp k).getD 0 + 1) else depsGet dp q :=
  depsGet_put dp k _ q

theorem setInsert_mem (l : List Hash) (k h : Hash) :
    h ∈ setInsert l k ↔ h ∈ l ∨ h = k := by
  unfold setInsert
  split
  · next hk =>
    refine ⟨Or.inl, ?_⟩
    rintro (hm | rfl)
    · exact hm
    · exact hk
  · simp [List.mem_cons, or_comm]

theorem depsInv_nil : DepsInv [] [] := by
  refine ⟨?_, ?_, ?_⟩
  · intro h
    simp [depsGet]
  · intro h v hv
    simp [depsGet] at hv
  · simp

theorem depsPut_keysNodup {dp : List (Hash × Nat)}
    (h : (dp.map Prod.fst).Nodup) (k : Hash) (v : Nat) :
    ((depsPut dp k v).map Prod.fst).Nodup := by
  unfold depsPut
  simp only [List.map_cons, List.nodup_cons]
  refine ⟨?_, ?_⟩
  · intro hm
    rcases List.mem_map.mp hm with ⟨p, hp, hpk⟩
    have := List.of_mem_filter hp
    simp [hpk] at this
  · exact List.Nodup.sublist (List.Sublist.map _ (List.filter_sublist dp)) h

theorem depsInv_put1 {dp : List (Hash × Nat)} {rq : List Hash}
    (hinv : DepsInv dp rq) (k : Hash) :
    DepsInv (depsPut dp k 1) (setInsert rq k) := by
  refine ⟨?_, ?_, depsPut_keysNodup hinv.2.2 k 1⟩
  · intro h
    rw [depsGet_put, setInsert_mem]
    by_cases hk : h = k
    · simp [hk]
    · simp only [if_neg hk]
      rw [hinv.1 h]
      simp [hk]
  · intro h v hv
    rw [depsGet_put] at hv
    by_cases hk : h = k
    · rw [if_pos hk] at hv
      have := Option.some.inj hv
      omega
    · rw [if_neg hk] at hv
      exact hinv.2.1 h v hv

theorem depsInv_bump {dp : List (Hash × Nat)} {rq : List Hash}
    (hinv : DepsInv dp rq) (k : Hash) :
    DepsInv (depsBump dp k) (setInsert rq k) := by
  refine ⟨?_, ?_, depsPut_keysNodup hinv.2.2 k _⟩
  · intro h
    rw [depsGet_bump, setInsert_mem]
    by_cases hk : h = k
    · simp [hk]
    · simp only [if_neg hk]
      rw [hinv.1 h]
      simp [hk]
  · intro h v hv
    rw [depsGet_bump] at hv
    by_cases hk : h = k
    · rw [if_pos hk] at hv
      have := Option.some.inj hv
      omega
    · rw [if_neg hk] at hv
      exact hinv.2.1 h v hv

theorem seedsFold_spec :
    ∀ (ks rq : List Hash) (dp : List (Hash × Nat)), DepsInv dp rq →
      DepsInv (ks.foldl (fun rd k => (setInsert rd.1 k, depsPut rd.2 k 1))
          (rq, dp)).2
        (ks.foldl (fun rd k => (setInsert rd.1 k, depsPut rd.2 k 1))
          (rq, dp)).1 ∧
      ∀ h, h ∈ (ks.foldl (fun rd k => (setInsert rd.1 k, depsPut rd.2 k 1))
          (rq, dp)).1 ↔ h ∈ rq ∨ h ∈ ks := by
  intro ks
  induction ks with
  | nil =>
    intro rq dp hinv
    exact ⟨hinv, fun h => by simp⟩
  | cons k t ih =>
    intro rq dp hinv
    have hstep := ih (setInsert rq k) (depsPut dp k 1) (depsInv_put1 hinv k)
    refine ⟨hstep.1, fun h => ?_⟩
    rw [List.foldl_cons]
    rw [hstep.2 h, setInsert_mem]
    simp only [List.mem_cons]
    tauto

theorem refsFold_spec :
    ∀ (ks rq : List Hash) (dp : List (Hash × Nat)), DepsInv dp rq →
      DepsInv (ks.foldl (fun rd k => (setInsert rd.1 k, depsBump rd.2 k))
          (rq, dp)).2
        (ks.foldl (fun rd k => (setInsert rd.1 k, depsBump rd.2 k))
          (rq, dp)).1 ∧
      ∀ h, h ∈ (ks.foldl (fun rd k => (setInsert rd.1 k, depsBump rd.2 k))
          (rq, dp)).1 ↔ h ∈ rq ∨ h ∈ ks := by
  intro ks
  induction ks with
  | nil =>
    intro rq dp hinv
    exact ⟨hinv, fun h => by simp⟩
  | cons k t ih =>
    intro rq dp hinv
    have hstep := ih (setInsert rq k) (depsBump dp k) (depsInv_bump hinv k)
    refine ⟨hstep.1, fun h => ?_⟩
    rw [List.foldl_cons]
    rw [hstep.2 h, setInsert_mem]
    simp only [List.mem_cons]
    tauto

theorem checkStep_ok (sha : Obj → Hash)
    (hwide : ∀ x : Obj, (sha x).length = 32) {s : Store}
    (hok : StoreOk sha s) {f : StoreFile} (hf : f ∈ s)
    (acc : List Hash × List Hash × List (Hash × Nat)) :
    Store.checkStep sha s acc f =
      .ok (setInsert acc.1 (sha f.obj),
        ((refsOf f.obj).foldl
          (fun rd k => (setInsert rd.1 k, depsBump rd.2 k))
          (acc.2.1, acc.2.2))) := by
  have hname : f.name = hashDisplay (sha f.obj) := (hok.2 f hf).1
  have hlen : f.name.length = 64 := by
    rw [hname, hashDisplay_length, hwide]
  have hmem : (⟨f.name, f.obj⟩ : StoreFile) ∈ s := by
    cases f
    exact hf
  unfold Store.checkStep
  rw [if_pos hlen]
  rw [lookup_of_mem sha hok hmem (hwide f.obj)]

theorem checkLoop_spec (sha : Obj → Hash)
    (hwide : ∀ x : Obj, (sha x).length = 32) {s : Store}
    (hok : StoreOk sha s) :
    ∀ (l : List StoreFile), (∀ f ∈ l, f ∈ s) →
      ∀ (fd rq : List Hash) (dp : List (Hash × Nat)), DepsInv dp rq →
      ∃ fd2 rq2 dp2,
        Store.checkLoop sha s l (fd, rq, dp) = .ok (fd2, rq2, dp2) ∧
        DepsInv dp2 rq2 ∧
        (∀ h, h ∈ fd2 ↔ h ∈ fd ∨ ∃ f ∈ l, sha f.obj = h) ∧
        (∀ h, h ∈ rq2 ↔ h ∈ rq ∨ ∃ f ∈ l, h ∈ refsOf f.obj) := by
  intro l
  induction l with
  | nil =>
    intro _ fd rq dp hinv
    exact ⟨fd, rq, dp, rfl, hinv, fun h => by simp, fun h => by simp⟩
  | cons f t ih =>
    intro hsub fd rq dp hinv
    have hrf := refsFold_spec (refsOf f.obj) rq dp hinv
    obtain ⟨fd2, rq2, dp2, hloop, hinv2, hfd2, hrq2⟩ :=
      ih (fun g hg => hsub g (List.mem_cons_of_mem _ hg))
        (setInsert fd (sha f.obj))
        ((refsOf f.obj).foldl
          (fun rd k => (setInsert rd.1 k, depsBump rd.2 k)) (rq, dp)).1
        ((refsOf f.obj).foldl
          (fun rd k => (setInsert rd.1 k, depsBump rd.2 k)) (rq, dp)).2
        hrf.1
    refine ⟨fd2, rq2, dp2, ?_, hinv2, ?_, ?_⟩
    · unfold Store.checkLoop
      rw [checkStep_ok sha hwide hok (hsub f (List.mem_cons_self f t))
        (fd, rq, dp)]
      exact hloop
    · intro h
      rw [hfd2 h, setInsert_mem]
      simp only [List.mem_cons]
      constructor
      · rintro ((hm | rfl) | ⟨g, hg, hgs⟩)
        · exact Or.inl hm
        · exact Or.inr ⟨f, Or.inl rfl, rfl⟩
        · exact Or.inr ⟨g, Or.inr hg, hgs⟩
      · rintro (hm | ⟨g, (rfl | hg), hgs⟩)
        · exact Or.inl (Or.inl hm)
        · exact Or.inl (Or.inr hgs.symm)
        · exact Or.inr ⟨g, hg, hgs⟩
    · intro h
      rw [hrq2 h, hrf.2 h]
      simp only [List.mem_cons]
      constructor
      · rintro ((hm | hk) | ⟨g, hg, hgs⟩)
        · exact Or.inl hm
        · exact Or.inr ⟨f, Or.inl rfl, hk⟩
        · exact Or.inr ⟨g, Or.inr hg, hgs⟩
      · rintro (hm | ⟨g, (rfl | hg), hgs⟩)
        · exact Or.inl (Or.inl hm)
        · exact Or.inl (Or.inr hgs)
        · exact Or.inr ⟨g, hg, hgs⟩

theorem zeroFold_get (rq : List Hash) :
    ∀ (fdl : List Hash) (dp : List (Hash × Nat)) (q : Hash),
      depsGet (fdl.foldl (fun d h => if h ∈ rq then d else depsPut d h 0) dp) q =
        if q ∈ fdl ∧ ¬ q ∈ rq then some 0 else depsGet dp q := by
  intro fdl
  induction fdl with
  | nil =>
    intro dp q
    simp
  | cons k t ih =>
    intro dp q
    rw [List.foldl_cons]
    rw [ih]
    by_cases hqt : q ∈ t ∧ ¬ q ∈ rq
    · rw [if_pos hqt, if_pos ⟨List.mem_cons_of_mem _ hqt.1, hqt.2⟩]
    · rw [if_neg hqt]
      by_cases hkr : k ∈ rq
      · rw [if_pos hkr]
        by_cases hq : q ∈ k :: t ∧ ¬ q ∈ rq
        · exfalso
          rcases List.mem_cons.mp hq.1 with rfl | hqm
          · exact hq.2 hkr
          · exact hqt ⟨hqm, hq.2⟩
        · rw [if_neg hq]
      · rw [if_neg hkr, depsGet_put]
        by_cases hqk : q = k
        · rw [if_pos hqk, if_pos ⟨List.mem_cons.mpr (Or.inl hqk), hqk ▸ hkr⟩]
        · rw [if_neg hqk]
          by_cases hq : q ∈ k :: t ∧ ¬ q ∈ rq
          · exfalso
            rcases List.mem_cons.mp hq.1 with rfl | hqm
            · exact hqk rfl
            · exact hqt ⟨hqm, hq.2⟩
          · rw [if_neg hq]

theorem zeroFold_keysNodup (rq : List Hash) :
    ∀ (fdl : List Hash) (dp : List (Hash × Nat)),
      (dp.map Prod.fst).Nodup →
      (((fdl.foldl (fun d h => if h ∈ rq then d else depsPut d h 0)
        dp)).map Prod.fst).Nodup := by
  intro fdl
  induction fdl with
  | nil => intro dp h; exact h
  | cons k t ih =>
    intro dp h
    rw [List.foldl_cons]
    by_cases hkr : k ∈ rq
    · rw [if_pos hkr]
      exact ih dp h
    · rw [if_neg hkr]
      exact ih _ (depsPut_keysNodup h k 0)

theorem mem_deps_iff_get {dp : List (Hash × Nat)}
    (hnd : (dp.map Prod.fst).Nodup) (k : Hash) (v : Nat) :
    (k, v) ∈ dp ↔ depsGet dp k = some v := by
  constructor
  · intro hm
    unfold depsGet
    rw [find?_key_eq Prod.fst hnd hm]
    rfl
  · intro hg
    unfold depsGet at hg
    cases hfind : dp.find? (fun p => p.1 == k) with
    | none =>
      rw [hfind] at hg
      cases hg
    | some p =>
      rw [hfind] at hg
      have hp1 : p.1 = k := by simpa using List.find?_some hfind
      have hp2 : p.2 = v := Option.some.inj hg
      have hpm := List.mem_of_find?_eq_some hfind
      have hpe : p = (k, v) := by
        cases p
        simp only [Prod.mk.injEq]
        exact ⟨hp1, hp2⟩
      exact hpe ▸ hpm

theorem check_ok_spec (sha : Obj → Hash)
    (hwide : ∀ x : Obj, (sha x).length = 32) {s : Store}
    (hok : StoreOk sha s) {seeds fd : List Hash} {dp : List (Hash × Nat)}
    (hck : Store.check sha s [] seeds = .ok (fd, dp)) :
    (∀ h, h ∈ fd ↔ ∃ f ∈ s, sha f.obj = h) ∧
      ∃ rq : List Hash,
        (∀ h, h ∈ rq ↔ h ∈ seeds ∨ ∃ f ∈ s, h ∈ refsOf f.obj) ∧
        (∀ h ∈ rq, h ∈ fd) ∧
        (∀ q, depsGet dp q = some 0 ↔ q ∈ fd ∧ ¬ q ∈ rq) ∧
        (dp.map Prod.fst).Nodup := by
  have hseeds := seedsFold_spec seeds [] [] depsInv_nil
  obtain ⟨fd2, rq2, dp2, hloop, hinv2, hfd2, hrq2⟩ :=
    checkLoop_spec sha hwide hok s (fun f hf => hf) [] _ _ hseeds.1
  unfold Store.check at hck
  dsimp only at hck
  rw [hloop] at hck
  dsimp only at hck
  cases hfil : rq2.filter (fun h => ¬ h ∈ fd2) with
  | cons m ms =>
    rw [hfil] at hck
    simp at hck
  | nil =>
    rw [hfil] at hck
    simp only [Except.ok.injEq, Prod.mk.injEq] at hck
    obtain ⟨hfd, hdp⟩ := hck
    have hsubrq : ∀ h ∈ rq2, h ∈ fd2 := by
      intro h hh
      have hni := List.filter_eq_nil_iff.mp hfil h hh
      simpa using hni
    constructor
    · intro h
      rw [← hfd, hfd2 h]
      simp
    · refine ⟨rq2, ?_, ?_, ?_, ?_⟩
      · intro h
        rw [hrq2 h, hseeds.2 h]
        simp
      · intro h hh
        rw [← hfd]
        exact hsubrq h hh
      · intro q
        rw [← hdp, ← hfd, zeroFold_get]
        constructor
        · intro hz
          by_cases hc : q ∈ fd2 ∧ ¬ q ∈ rq2
          · exact hc
          · rw [if_neg hc] at hz
            have := hinv2.2.1 q 0 hz
            omega
        · intro hc
          rw [if_pos hc]
      · rw [← hdp]
        exact zeroFold_keysNodup rq2 fd2 dp2 hinv2.2.2

theorem check_ok_of_closed (sha : Obj → Hash)
    (hwide : ∀ x : Obj, (sha x).length = 32) {s : Store}
    (hok : StoreOk sha s) (seeds : List Hash)
    (hclosed : ∀ h, (h ∈ seeds ∨ ∃ f ∈ s, h ∈ refsOf f.obj) →
      ∃ f ∈ s, sha f.obj = h) :
    ∃ out, Store.check sha s [] seeds = .ok out := by
  have hseeds := seedsFold_spec seeds [] [] depsInv_nil
  obtain ⟨fd2, rq2, dp2, hloop, hinv2, hfd2, hrq2⟩ :=
    checkLoop_spec sha hwide hok s (fun f hf => hf) [] _ _ hseeds.1
  have hfil : rq2.filter (fun h => ¬ h ∈ fd2) = [] := by
    rw [List.filter_eq_nil_iff]
    intro h hh
    have hr : h ∈ seeds ∨ ∃ f ∈ s, h ∈ refsOf f.obj := by
      have := (hrq2 h).mp hh
      rcases this with hseed | href
      · exact Or.inl (((hseeds.2 h).mp hseed).resolve_left (by simp))
      · exact Or.inr href
    have := hclosed h hr
    have hfd : h ∈ fd2 := (hfd2 h).mpr (Or.inr this)
    simp [hfd]
  refine ⟨(fd2, fd2.foldl
    (fun d h => if h ∈ rq2 then d else depsPut d h 0) dp2), ?_⟩
  unfold Store.check
  dsimp only
  rw [hloop]
  dsimp only
  rw [hfil]

theorem removeFold_mem :
    ∀ (zeros : List Hash) (s : Store) (f : StoreFile),
      f ∈ zeros.foldl Store.remove s ↔
        f ∈ s ∧ ∀ h ∈ zeros, f.name ≠ hashDisplay h := by
  intro zeros
  induction zeros with
  | nil =>
    intro s f
    simp
  | cons z t ih =>
    intro s f
    rw [List.foldl_cons, ih]
    unfold Store.remove
    rw [List.mem_filter]
    simp only [List.mem_cons, decide_not, Bool.not_eq_true', decide_eq_false_iff_not]
    constructor
    · rintro ⟨⟨hm, hz⟩, ht⟩
      refine ⟨hm, ?_⟩
      rintro h (rfl | hh)
      · exact hz
      · exact ht h hh
    · rintro ⟨hm, hall⟩
      exact ⟨⟨hm, hall z (Or.inl rfl)⟩, fun h hh => hall h (Or.inr hh)⟩

theorem removeFold_sublist :
    ∀ (zeros : List Hash) (s : Store),
      (zeros.foldl Store.remove s).Sublist s := by
  intro zeros
  induction zeros with
  | nil => intro s; exact List.Sublist.refl s
  | cons z t ih =>
    intro s
    rw [List.foldl_cons]
    exact (ih (Store.remove s z)).trans (List.filter_sublist s)

theorem storeOk_sublist (sha : Obj → Hash) {s s2 : Store}
    (hok : StoreOk sha s) (hsub : s2.Sublist s) : StoreOk sha s2 :=
  ⟨List.Nodup.sublist (List.Sublist.map _ hsub) hok.1,
   fun f hf => hok.2 f (hsub.subset hf)⟩

theorem zeros_mem_iff {dp : List (Hash × Nat)}
    (hnd : (dp.map Prod.fst).Nodup) (h : Hash) :
    h ∈ (dp.filter (fun p => p.2 = 0)).map Prod.fst ↔
      depsGet dp h = some 0 := by
  rw [← mem_deps_iff_get hnd]
  constructor
  · intro hm
    rcases List.mem_map.mp hm with ⟨p, hp, hp1⟩
    have hpf := List.mem_filter.mp hp
    have hp2 : p.2 = 0 := by simpa using hpf.2
    have hpe : p = (h, 0) := by
      cases p
      simp only [Prod.mk.injEq]
      exact ⟨hp1, hp2⟩
    exact hpe ▸ hpf.1
  · intro hm
    exact List.mem_map.mpr ⟨(h, 0), List.mem_filter.mpr ⟨hm, by simp⟩, rfl⟩

/-- C9 counterexample: after `add x` then `sub x` on a fresh repository, gc
(per the spec: `check` with dependency capture, then removal of every
count-0 hash) removes only the stale stage-root tree.  The blob for `x`
was still referenced by that tree during the check pass, so its count is
1 and it survives the gc — refuting "the blob for x has been removed",
and, since the surviving blob is neither head, stage, nor referenced by
any remaining object, also "no object unreachable from {head, stage}
remains in the store". -/
theorem claim_c9_counterexample :
    Repository.gc shaT repo2 =
        .ok ⟨⟨hashDisplay hX, blobX⟩ :: store0, repo2.info⟩ ∧
      (⟨hashDisplay hX, blobX⟩ : StoreFile) ∈
        (⟨hashDisplay hX, blobX⟩ :: store0 : Store) ∧
      hX = shaT blobX ∧
      hX ≠ repo2.info.head ∧ hX ≠ repo2.info.stage ∧
      ∀ g ∈ (⟨hashDisplay hX, blobX⟩ :: store0 : Store), ¬ hX ∈ refsOf g.obj :=
  ⟨by decide, by decide, by decide, by decide, by decide, by decide⟩

/-- C9 amended (the gc driver is modelled from the spec, `Store::check` is
the source's): gc succeeds and removes exactly the files whose recomputed
hash has dependency count 0 — neither head, nor stage, nor referenced by
any object present in the store during the check pass.  Every file whose
hash is a seed or is so referenced survives — in particular the head and
stage objects — and `check` still succeeds on the collected store.  An
unreachable chain is thus trimmed one level per gc run, not removed
whole. -/
theorem claim_c9_amended (sha : Obj → Hash)
    (hwide : ∀ x : Obj, (sha x).length = 32) (r : Repository)
    (hok : StoreOk sha r.store) {fd : List Hash} {dp : List (Hash × Nat)}
    (hck : Store.check sha r.store [] [r.info.head, r.info.stage] =
      .ok (fd, dp)) :
    ∃ r2, Repository.gc sha r = .ok r2 ∧
      (∀ f, f ∈ r2.store ↔ f ∈ r.store ∧
        (sha f.obj = r.info.head ∨ sha f.obj = r.info.stage ∨
          ∃ g ∈ r.store, sha f.obj ∈ refsOf g.obj)) ∧
      (∀ f ∈ r.store,
        (sha f.obj = r.info.head ∨ sha f.obj = r.info.stage) →
          f ∈ r2.store) ∧
      ∃ out, Store.check sha r2.store [] [r.info.head, r.info.stage] =
        .ok out := by
  obtain ⟨hfdchar, rq, hrqchar, hrqfd, hzeros, hnd⟩ :=
    check_ok_spec sha hwide hok hck
  have hgc : Repository.gc sha r = .ok { r with store :=
      (((dp.filter (fun p => p.2 = 0)).map Prod.fst).foldl
        Store.remove r.store) } := by
    unfold Repository.gc
    rw [hck]
  have hseedmem : ∀ h : Hash,
      h ∈ ([r.info.head, r.info.stage] : List Hash) ↔
        h = r.info.head ∨ h = r.info.stage := by
    intro h
    simp
  have hzmem : ∀ h : Hash,
      h ∈ (dp.filter (fun p => p.2 = 0)).map Prod.fst ↔
        h ∈ fd ∧ ¬ h ∈ rq := by
    intro h
    rw [zeros_mem_iff hnd, hzeros]
  have hmain : ∀ f, f ∈ (((dp.filter (fun p => p.2 = 0)).map Prod.fst).foldl
      Store.remove r.store) ↔ f ∈ r.store ∧
        (sha f.obj = r.info.head ∨ sha f.obj = r.info.stage ∨
          ∃ g ∈ r.store, sha f.obj ∈ refsOf g.obj) := by
    intro f
    rw [removeFold_mem]
    constructor
    · rintro ⟨hmem, hnz⟩
      refine ⟨hmem, ?_⟩
      have hfd : sha f.obj ∈ fd := (hfdchar _).mpr ⟨f, hmem, rfl⟩
      have hrq : sha f.obj ∈ rq := by
        by_contra hno
        exact hnz (sha f.obj) ((hzmem _).mpr ⟨hfd, hno⟩) (hok.2 f hmem).1
      have := (hrqchar _).mp hrq
      rcases this with hs | href
      · rcases (hseedmem _).mp hs with h1 | h2
        · exact Or.inl h1
        · exact Or.inr (Or.inl h2)
      · exact Or.inr (Or.inr href)
    · rintro ⟨hmem, hdisj⟩
      refine ⟨hmem, ?_⟩
      intro h hh hne
      have hz := (hzmem h).mp hh
      have hfd : h ∈ fd := hz.1
      rcases (hfdchar h).mp hfd with ⟨g, hg, hgs⟩
      have hgn : g.name = hashDisplay h := by
        rw [(hok.2 g hg).1, hgs]
      have hfg : f = g :=
        keyed_unique (fun x : StoreFile => x.name) hok.1 hmem hg
          (hne.trans hgn.symm)
      have hsf : sha f.obj = h := by
        rw [hfg]
        exact hgs
      apply hz.2
      apply (hrqchar h).mpr
      rw [← hsf]
      rcases hdisj with h1 | h2 | href
      · exact Or.inl ((hseedmem _).mpr (Or.inl h1))
      · exact Or.inl ((hseedmem _).mpr (Or.inr h2))
      · exact Or.inr href
  refine ⟨_, hgc, hmain, ?_, ?_⟩
  · intro f hf hds
    apply (hmain f).mpr
    rcases hds with h1 | h2
    · exact ⟨hf, Or.inl h1⟩
    · exact ⟨hf, Or.inr (Or.inl h2)⟩
  · have hsub := removeFold_sublist
      ((dp.filter (fun p => p.2 = 0)).map Prod.fst) r.store
    have hok2 : StoreOk sha (((dp.filter (fun p => p.2 = 0)).map
        Prod.fst).foldl Store.remove r.store) :=
      storeOk_sublist sha hok hsub
    apply check_ok_of_closed sha hwide hok2
    intro h hr
    have hrq : h ∈ rq := by
      apply (hrqchar h).mpr
      rcases hr with hs | ⟨g, hg, hgr⟩
      · exact Or.inl hs
      · exact Or.inr ⟨g, hsub.subset hg, hgr⟩
    have hfd : h ∈ fd := hrqfd h hrq
    rcases (hfdchar h).mp hfd with ⟨f, hf, hfs⟩
    refine ⟨f, ?_, hfs⟩
    apply (hmain f).mpr
    refine ⟨hf, ?_⟩
    have := (hrqchar h).mp hrq
    rcases this with hs | href
    · rcases (hseedmem h).mp hs with h1 | h2
      · exact Or.inl (by rw [hfs]; exact h1)
      · exact Or.inr (Or.inl (by rw [hfs]; exact h2))
    · exact Or.inr (Or.inr (by rw [hfs]; exact href))

/-- C5 witness: `add x` on the fresh repository, then the same `add x`
again, returns the state unchanged with a clean flag. -/
theorem claim_c5_witness :
    StoreOk shaT repo0.store ∧ repo0.info.stage.length = 32 ∧
      Repository.add shaT repo0 [120] [] [120] = .ok (repo1, true) ∧
      Repository.add shaT repo1 [120] [] [120] = .ok (repo1, true) :=
  ⟨by decide, by decide, by decide,
   (claim_c5 shaT repo0 repo1 [120] [] [120] shaT_length (by decide)
     (by decide) (by decide)).1⟩

/-- C9 witness: the add/sub scenario — gc succeeds and the head and stage
objects survive, and the dependency counts captured by `check` are the
computed ones (the stale tree at 0, the blob at 1). -/
theorem claim_c9_witness :
    StoreOk shaT repo2.store ∧
      Store.check shaT repo2.store [] [repo2.info.head, repo2.info.stage] =
        .ok ([shaT .null, shaT (.tree []), hX, shaT treeX],
          [(shaT treeX, 0), (hX, 1), (shaT (.tree []), 1), (shaT .null, 1)]) ∧
      ∃ r2, Repository.gc shaT repo2 = .ok r2 ∧
        ∀ f ∈ repo2.store,
          (shaT f.obj = repo2.info.head ∨ shaT f.obj = repo2.info.stage) →
            f ∈ r2.store := by
  have hck : Store.check shaT repo2.store []
      [repo2.info.head, repo2.info.stage] =
      .ok ([shaT .null, shaT (.tree []), hX, shaT treeX],
        [(shaT treeX, 0), (hX, 1), (shaT (.tree []), 1), (shaT .null, 1)]) := by
    decide
  refine ⟨by decide, hck, ?_⟩
  obtain ⟨r2, hgc, hmem, hseeds, -⟩ :=
    claim_c9_amended shaT shaT_length repo2 (by decide) hck
  exact ⟨r2, hgc, hseeds⟩
